import Mathlib

/-!
Verification of the BODMAS expression evaluator (`src/flask_app.py`, class
`BODMASSolver`) against its natural-language specification.

The solver has three operations:
* `solve` (lines 30-37): `eval(expr)` followed by `float(...)`, any exception
  gives `None`;
* `validate_answer` (lines 39-64): compares a student answer to `solve`'s
  result with tolerance `0.0001`;
* `get_correct_steps` (lines 66-161): a regex-driven step-by-step reducer.

The shallow embedding below models the arithmetic fragment of Python that
these inputs exercise: decimal int/float literals (including exponent parts),
the keywords `True`/`False`, the binary operators `+ - * / // % **`, unary
`+`/`-`, and parentheses.  Python numbers are modelled exactly: `int` by `ℤ`,
`float` by `ℚ` (machine-float rounding and overflow are not modelled; no
claim proved here depends on them), `bool` by `Bool`.  Every failure mode of
`eval`/`float` in this fragment (syntax errors, `NameError`,
`ZeroDivisionError`, irrational powers - which the rational model cannot
represent and which no claim exercises) is collapsed to `none`, matching the
blanket `except` handlers in the source.
-/

namespace BODMAS

/-! ### Computable rational arithmetic

Batteries marks `Rat.add`, `Rat.mul`, `Rat.inv`, ... `@[irreducible]`, which
blocks `decide`/`rfl` evaluation of concrete inputs, so the embedding builds
its arithmetic on the normalising constructor `Rat.divInt` and proves each
operation equal to the corresponding Mathlib field operation. -/

/-- Rational addition via `Rat.divInt`. -/
def qAdd (a b : ℚ) : ℚ := Rat.divInt (a.num * b.den + b.num * a.den) (a.den * b.den)

/-- Rational subtraction via `Rat.divInt`. -/
def qSub (a b : ℚ) : ℚ := Rat.divInt (a.num * b.den - b.num * a.den) (a.den * b.den)

/-- Rational multiplication via `Rat.divInt`. -/
def qMul (a b : ℚ) : ℚ := Rat.divInt (a.num * b.num) (a.den * b.den)

/-- Rational division via `Rat.divInt` (zero divisor gives `0`, as in Lean). -/
def qDiv (a b : ℚ) : ℚ := Rat.divInt (a.num * b.den) (a.den * b.num)

/-- Rational negation via `Rat.divInt`. -/
def qNeg (a : ℚ) : ℚ := Rat.divInt (-a.num) a.den

/-- Rational absolute value. -/
def qAbs (a : ℚ) : ℚ := if a.num < 0 then qNeg a else a

/-- Rational power with natural exponent. -/
def qNpow (a : ℚ) : ℕ → ℚ
  | 0 => 1
  | n + 1 => qMul (qNpow a n) a

/-- Rational power with integer exponent. -/
def qZpow (a : ℚ) : ℤ → ℚ
  | .ofNat n => qNpow a n
  | .negSucc n => qDiv 1 (qNpow a (n + 1))

theorem qAdd_eq (a b : ℚ) : qAdd a b = a + b := by
  have ha : ((a.den : ℚ)) ≠ 0 := Nat.cast_ne_zero.mpr a.den_nz
  have hb : ((b.den : ℚ)) ≠ 0 := Nat.cast_ne_zero.mpr b.den_nz
  rw [qAdd, Rat.divInt_eq_div]
  conv_rhs => rw [← Rat.num_div_den a, ← Rat.num_div_den b]
  push_cast
  field_simp

theorem qSub_eq (a b : ℚ) : qSub a b = a - b := by
  have ha : ((a.den : ℚ)) ≠ 0 := Nat.cast_ne_zero.mpr a.den_nz
  have hb : ((b.den : ℚ)) ≠ 0 := Nat.cast_ne_zero.mpr b.den_nz
  rw [qSub, Rat.divInt_eq_div]
  conv_rhs => rw [← Rat.num_div_den a, ← Rat.num_div_den b]
  push_cast
  field_simp
  ring

theorem qMul_eq (a b : ℚ) : qMul a b = a * b := by
  have ha : ((a.den : ℚ)) ≠ 0 := Nat.cast_ne_zero.mpr a.den_nz
  have hb : ((b.den : ℚ)) ≠ 0 := Nat.cast_ne_zero.mpr b.den_nz
  rw [qMul, Rat.divInt_eq_div]
  conv_rhs => rw [← Rat.num_div_den a, ← Rat.num_div_den b]
  push_cast
  field_simp

theorem qNeg_eq (a : ℚ) : qNeg a = -a := by
  have ha : ((a.den : ℚ)) ≠ 0 := Nat.cast_ne_zero.mpr a.den_nz
  rw [qNeg, Rat.divInt_eq_div]
  conv_rhs => rw [← Rat.num_div_den a]
  push_cast
  field_simp

theorem qDiv_eq (a b : ℚ) : qDiv a b = a / b := by
  have ha : ((a.den : ℚ)) ≠ 0 := Nat.cast_ne_zero.mpr a.den_nz
  have hb : ((b.den : ℚ)) ≠ 0 := Nat.cast_ne_zero.mpr b.den_nz
  rcases eq_or_ne b 0 with hb0 | hb0
  · subst hb0
    simp [qDiv, Rat.divInt_eq_div]
  · have hbn : ((b.num : ℚ)) ≠ 0 := Int.cast_ne_zero.mpr (Rat.num_ne_zero.mpr hb0)
    rw [qDiv, Rat.divInt_eq_div]
    conv_rhs => rw [← Rat.num_div_den a, ← Rat.num_div_den b]
    push_cast
    field_simp

theorem qAbs_eq (a : ℚ) : qAbs a = |a| := by
  rcases lt_trichotomy a 0 with h | h | h
  · have hn : a.num < 0 := Rat.num_neg.mpr h
    rw [qAbs, if_pos hn, qNeg_eq, abs_of_neg h]
  · subst h; simp [qAbs, qNeg_eq]
  · have hn : ¬ a.num < 0 := not_lt.mpr (le_of_lt (Rat.num_pos.mpr h))
    rw [qAbs, if_neg hn, abs_of_pos h]

theorem qNpow_eq (a : ℚ) (n : ℕ) : qNpow a n = a ^ n := by
  induction n with
  | zero => simp [qNpow]
  | succ n ih => rw [qNpow, ih, qMul_eq, pow_succ]

theorem qZpow_eq (a : ℚ) (e : ℤ) : qZpow a e = a ^ e := by
  cases e with
  | ofNat n => rw [qZpow, qNpow_eq, Int.ofNat_eq_coe, zpow_natCast]
  | negSucc n => rw [qZpow, qDiv_eq, qNpow_eq, zpow_negSucc, one_div]

/-! ### Python values -/

/-- Binary operators of the modelled fragment of Python expressions. -/
inductive BinOp
  | add | sub | mul | div | floordiv | modOp | pow
  deriving DecidableEq, Repr

/-- A Python value produced by `eval` on the arithmetic fragment:
an `int`, a `float`, or a `bool`. -/
inductive PyVal
  | intV (n : ℤ)
  | floatV (q : ℚ)
  | boolV (b : Bool)
  deriving DecidableEq, Repr

namespace PyVal

/-- Numeric value of a Python value (`bool` counts as `0`/`1`, as in
Python arithmetic). -/
def toQ : PyVal → ℚ
  | intV n => (n : ℚ)
  | floatV q => q
  | boolV b => if b then 1 else 0

/-- Integer view used for Python's int/float promotion rule: `int` and
`bool` operands give an `int` result, a `float` operand makes the result
`float`. -/
def asInt : PyVal → Option ℤ
  | intV n => some n
  | boolV b => some (if b then 1 else 0)
  | floatV _ => none

end PyVal

/-- Python `a + b` on the fragment. -/
def pvAdd (a b : PyVal) : PyVal :=
  match a.asInt, b.asInt with
  | some m, some n => .intV (m + n)
  | _, _ => .floatV (qAdd a.toQ b.toQ)

/-- Python `a - b` on the fragment. -/
def pvSub (a b : PyVal) : PyVal :=
  match a.asInt, b.asInt with
  | some m, some n => .intV (m - n)
  | _, _ => .floatV (qSub a.toQ b.toQ)

/-- Python `a * b` on the fragment. -/
def pvMul (a b : PyVal) : PyVal :=
  match a.asInt, b.asInt with
  | some m, some n => .intV (m * n)
  | _, _ => .floatV (qMul a.toQ b.toQ)

/-- Python `a / b`: true division, always a `float`; division by zero
raises `ZeroDivisionError`, modelled as `none`. -/
def pvDiv (a b : PyVal) : Option PyVal :=
  if b.toQ = 0 then none else some (.floatV (qDiv a.toQ b.toQ))

/-- Python `a // b`: floor division (`int` result on `int` operands). -/
def pvFloorDiv (a b : PyVal) : Option PyVal :=
  if b.toQ = 0 then none
  else match a.asInt, b.asInt with
    | some m, some n => some (.intV (Int.fdiv m n))
    | _, _ => some (.floatV (((qDiv a.toQ b.toQ).floor : ℤ) : ℚ))

/-- Python `a % b`: remainder with the sign of the divisor. -/
def pvMod (a b : PyVal) : Option PyVal :=
  if b.toQ = 0 then none
  else match a.asInt, b.asInt with
    | some m, some n => some (.intV (Int.fmod m n))
    | _, _ => some (.floatV (qSub a.toQ (qMul b.toQ (((qDiv a.toQ b.toQ).floor : ℤ) : ℚ))))

/-- Python `a ** b` on the fragment.  `int ** nonnegative int` is an `int`;
a negative integer exponent gives a `float`; `0` to a negative power raises
`ZeroDivisionError` (`none`).  A non-integral exponent would give an
irrational (or complex) result, which the rational model maps to `none`;
no proved claim exercises that case. -/
def pvPow (a b : PyVal) : Option PyVal :=
  match a.asInt, b.asInt with
  | some m, some n =>
      if 0 ≤ n then some (.intV (m ^ n.toNat))
      else if m = 0 then none
      else some (.floatV (qZpow (m : ℚ) n))
  | _, _ =>
      if (b.toQ).den = 1 then
        if a.toQ = 0 ∧ (b.toQ).num < 0 then none
        else some (.floatV (qZpow a.toQ (b.toQ).num))
      else none

/-- Python unary `-`. -/
def pvNeg : PyVal → PyVal
  | .intV n => .intV (-n)
  | .floatV q => .floatV (qNeg q)
  | .boolV b => .intV (-(if b then 1 else 0))

/-- Python unary `+` (turns a `bool` into an `int`, otherwise identity). -/
def pvPos : PyVal → PyVal
  | .boolV b => .intV (if b then 1 else 0)
  | v => v

/-- Python `float(v)` on the fragment (always succeeds on numbers/bools). -/
def pvFloat (v : PyVal) : ℚ := v.toQ

/-! ### Tokenizer for the arithmetic fragment accepted by `eval` -/

/-- Whitespace characters recognised by Python's tokenizer. -/
def isPySpace (c : Char) : Bool :=
  c = ' ' || c = '\t' || c = '\n' || c = '\r' || c = '\x0b' || c = '\x0c'

/-- Identifier characters (used only to recognise `True`/`False`; any other
name would raise `NameError` inside `eval`, which the callers catch). -/
def isWordChar (c : Char) : Bool :=
  c.isAlphanum || c = '_'

/-- Numeric value of a list of decimal digit characters. -/
def natOfDigits (ds : List Char) : ℕ :=
  ds.foldl (fun a c => 10 * a + (c.toNat - 48)) 0

/-- Value of a decimal literal with integer part `ds`, fractional part `fs`
and decimal exponent `e`. -/
def decValue (ds fs : List Char) (e : ℤ) : ℚ :=
  qMul (Rat.divInt ((natOfDigits (ds ++ fs) : ℤ)) ((10 : ℤ) ^ fs.length)) (qZpow 10 e)

/-- A token of the fragment: a literal value, an operator, or a bracket. -/
inductive Tok
  | num (v : PyVal)
  | op (o : BinOp)
  | lpar
  | rpar
  deriving DecidableEq, Repr

/-- Finish scanning a numeric literal whose exponent digits start at `r`
(after an optional sign handled by the caller). -/
def expoDigits (ds fs : List Char) (sign : ℤ) (r : List Char) :
    Option (Tok × List Char) :=
  let es := r.takeWhile Char.isDigit
  let r2 := r.dropWhile Char.isDigit
  if es.isEmpty then none
  else some (.num (.floatV (decValue ds fs (sign * (natOfDigits es : ℤ)))), r2)

/-- Finish scanning a numeric literal after an `e`/`E` has been consumed. -/
def expoSigned (ds fs : List Char) (r : List Char) : Option (Tok × List Char) :=
  match r with
  | '+' :: r2 => expoDigits ds fs 1 r2
  | '-' :: r2 => expoDigits ds fs (-1) r2
  | _ => expoDigits ds fs 1 r

/-- Finish scanning a numeric literal whose mantissa (`ds` before the dot,
`fs` after it, `isFl` records whether a dot was seen) has been consumed
and is followed by `r`.  An integer literal with a leading zero and a
nonzero digit is a Python syntax error. -/
def finishNum (ds fs : List Char) (isFl : Bool) (r : List Char) :
    Option (Tok × List Char) :=
  if r.head? = some 'e' ∨ r.head? = some 'E' then expoSigned ds fs r.tail
  else if isFl then some (.num (.floatV (decValue ds fs 0)), r)
  else if 1 < ds.length ∧ ds.head? = some '0' ∧ ds.any (· ≠ '0') then none
  else some (.num (.intV (natOfDigits ds : ℤ)), r)

/-- Scan one numeric literal (decimal int or float) from the front of `cs`. -/
def readNum (cs : List Char) : Option (Tok × List Char) :=
  let ds := cs.takeWhile Char.isDigit
  let r1 := cs.dropWhile Char.isDigit
  if r1.head? = some '.' then
    let r2 := r1.tail
    if ds.isEmpty && !(r2.head?.elim false Char.isDigit) then none
    else finishNum ds (r2.takeWhile Char.isDigit) true (r2.dropWhile Char.isDigit)
  else if ds.isEmpty then none
  else finishNum ds [] false r1

/-- Scan the keywords `True`/`False` (any other word is a `NameError`). -/
def wordTok (cs : List Char) : Option (Tok × List Char) :=
  let w := cs.takeWhile isWordChar
  let rest := cs.dropWhile isWordChar
  if w = "True".data then some (Tok.num (.boolV true), rest)
  else if w = "False".data then some (Tok.num (.boolV false), rest)
  else none

/-- Scan an operator or bracket starting with `c` (`**` and `//` take the
extra character from `cs`, as Python's tokenizer does maximal munch). -/
def opTok (c : Char) (cs : List Char) : Option (Tok × List Char) :=
  if c = '+' then some (Tok.op .add, cs)
  else if c = '-' then some (Tok.op .sub, cs)
  else if c = '*' then
    if cs.head? = some '*' then some (Tok.op .pow, cs.tail)
    else some (Tok.op .mul, cs)
  else if c = '/' then
    if cs.head? = some '/' then some (Tok.op .floordiv, cs.tail)
    else some (Tok.op .div, cs)
  else if c = '%' then some (Tok.op .modOp, cs)
  else if c = '(' then some (Tok.lpar, cs)
  else if c = ')' then some (Tok.rpar, cs)
  else none

/-- Tokenize the fragment; `none` models a `SyntaxError`/`NameError` raised
by `eval` (both are caught by every caller in the source).  `fuel` bounds
the recursion and any `fuel ≥ length` is enough, since every step consumes
at least one character. -/
def tokenizeAux : ℕ → List Char → Option (List Tok)
  | _, [] => some []
  | 0, _ :: _ => none
  | fuel + 1, c :: cs =>
    if isPySpace c then tokenizeAux fuel cs
    else if c.isDigit || (c = '.' && (cs.head?.elim false Char.isDigit)) then
      (readNum (c :: cs)).bind (fun p => (tokenizeAux fuel p.2).map (p.1 :: ·))
    else if isWordChar c then
      (wordTok (c :: cs)).bind (fun p => (tokenizeAux fuel p.2).map (p.1 :: ·))
    else
      (opTok c cs).bind (fun p => (tokenizeAux fuel p.2).map (p.1 :: ·))

/-- Token list of a character list (with enough fuel). -/
def tokenizeChars (cs : List Char) : Option (List Tok) :=
  tokenizeAux (cs.length + 1) cs

/-! ### Recursive-descent parser/evaluator with Python's precedence

`parseL fuel lvl acc toks` parses at precedence level `lvl`:
`0` atom, `1` power (`**`, right-associative, binds the right operand at
unary level), `2` unary `+`/`-`, `3` multiplicative entry, `5` the
left-associative `* / // %` loop (accumulator `acc`), `4` additive entry,
`6` the left-associative `+ -` loop.  Any `fuel` at least
`6 * toks.length + 6` is enough; the top level uses a larger bound. -/
def parseL : ℕ → ℕ → PyVal → List Tok → Option (PyVal × List Tok)
  | 0, _, _, _ => none
  | fuel + 1, 0, _, toks =>
    match toks with
    | Tok.num v :: rest => some (v, rest)
    | Tok.lpar :: rest =>
      match parseL fuel 4 (.intV 0) rest with
      | some (v, Tok.rpar :: rest2) => some (v, rest2)
      | _ => none
    | _ => none
  | fuel + 1, 1, _, toks =>
    match parseL fuel 0 (.intV 0) toks with
    | some (v, Tok.op BinOp.pow :: rest) =>
      match parseL fuel 2 (.intV 0) rest with
      | some (e, rest2) => (pvPow v e).map (fun w => (w, rest2))
      | none => none
    | r => r
  | fuel + 1, 2, _, toks =>
    match toks with
    | Tok.op BinOp.sub :: rest => (parseL fuel 2 (.intV 0) rest).map (fun p => (pvNeg p.1, p.2))
    | Tok.op BinOp.add :: rest => (parseL fuel 2 (.intV 0) rest).map (fun p => (pvPos p.1, p.2))
    | _ => parseL fuel 1 (.intV 0) toks
  | fuel + 1, 3, _, toks =>
    match parseL fuel 2 (.intV 0) toks with
    | some (v, rest) => parseL fuel 5 v rest
    | none => none
  | fuel + 1, 5, acc, toks =>
    match toks with
    | Tok.op BinOp.mul :: rest =>
      match parseL fuel 2 (.intV 0) rest with
      | some (v, r) => parseL fuel 5 (pvMul acc v) r
      | none => none
    | Tok.op BinOp.div :: rest =>
      match parseL fuel 2 (.intV 0) rest with
      | some (v, r) => (pvDiv acc v).bind (fun w => parseL fuel 5 w r)
      | none => none
    | Tok.op BinOp.floordiv :: rest =>
      match parseL fuel 2 (.intV 0) rest with
      | some (v, r) => (pvFloorDiv acc v).bind (fun w => parseL fuel 5 w r)
      | none => none
    | Tok.op BinOp.modOp :: rest =>
      match parseL fuel 2 (.intV 0) rest with
      | some (v, r) => (pvMod acc v).bind (fun w => parseL fuel 5 w r)
      | none => none
    | _ => some (acc, toks)
  | fuel + 1, 4, _, toks =>
    match parseL fuel 3 (.intV 0) toks with
    | some (v, rest) => parseL fuel 6 v rest
    | none => none
  | fuel + 1, 6, acc, toks =>
    match toks with
    | Tok.op BinOp.add :: rest =>
      match parseL fuel 3 (.intV 0) rest with
      | some (v, r) => parseL fuel 6 (pvAdd acc v) r
      | none => none
    | Tok.op BinOp.sub :: rest =>
      match parseL fuel 3 (.intV 0) rest with
      | some (v, r) => parseL fuel 6 (pvSub acc v) r
      | none => none
    | _ => some (acc, toks)
  | _ + 1, _ + 7, _, _ => none

/-- Evaluate a full token list as one expression (Python `eval` requires the
whole input to be consumed). -/
def pyEvalToks (ts : List Tok) : Option PyVal :=
  match parseL (8 * ts.length + 8) 4 (.intV 0) ts with
  | some (v, []) => some v
  | _ => none

/-- Python `eval` on the arithmetic fragment, over a character list. -/
def pyEvalChars (cs : List Char) : Option PyVal :=
  (tokenizeChars cs).bind pyEvalToks

/-- Embedding of `BODMASSolver.solve` (`src/flask_app.py` lines 30-37):
`float(eval(expr))`, with every exception mapped to `None` (`none`). -/
def pySolve (s : String) : Option ℚ :=
  (pyEvalChars s.data).map pvFloat

/-! ### Python `str()` of numeric results

`get_correct_steps` splices `str(result)` back into the working string.
`str` of an `int` is its decimal form; `str` of a `float` is its shortest
round-trip decimal.  The model prints the exact decimal expansion when it
terminates (which reproduces Python on every value the proved claims touch);
values with non-terminating expansions are printed truncated to 16 fractional
digits, and very large/small magnitudes are not switched to scientific
notation - documented approximations that no claim exercises. -/

/-- Decimal digit characters of `n`, most significant first (helper with
fuel; any `fuel > n` is enough since `n / 10 < n` for `n > 0`). -/
def natDigitsAux : ℕ → ℕ → List Char → List Char
  | 0, _, acc => acc
  | fuel + 1, n, acc =>
    if n = 0 then acc
    else natDigitsAux fuel (n / 10) (Char.ofNat (48 + n % 10) :: acc)

/-- Decimal digit characters of a natural number. -/
def natChars (n : ℕ) : List Char :=
  if n = 0 then ['0'] else natDigitsAux (n + 1) n []

/-- Decimal digit characters of an integer (Python `str(int)`). -/
def intChars (n : ℤ) : List Char :=
  if n < 0 then '-' :: natChars n.natAbs else natChars n.natAbs

/-- Smallest exponent `k ≤ 39` with `den ∣ 10 ^ k`, if any: the number of
fractional digits in the terminating decimal expansion. -/
def decExpOf (den : ℕ) : Option ℕ :=
  (List.range 40).find? (fun k => 10 ^ k % den = 0)

/-- Fractional digits of `fp`, left-padded with zeros to width `k`. -/
def fracChars (k fp : ℕ) : List Char :=
  let ds := natChars fp
  List.replicate (k - ds.length) '0' ++ ds

/-- Python `str()` of a float value (see the section comment for the
modelling caveats). -/
def pyFloatChars (q : ℚ) : List Char :=
  let sign : List Char := if q.num < 0 then ['-'] else []
  let a := q.num.natAbs
  match decExpOf q.den with
  | some k =>
    if k = 0 then sign ++ natChars a ++ ['.', '0']
    else
      let m := a * 10 ^ k / q.den
      sign ++ natChars (m / 10 ^ k) ++ '.' :: fracChars k (m % 10 ^ k)
  | none =>
    let m := a * 10 ^ 16 / q.den
    sign ++ natChars (m / 10 ^ 16) ++ '.' :: fracChars 16 (m % 10 ^ 16)

/-- Python `str()` of an `eval` result (used by the bracket phase). -/
def pyValChars : PyVal → List Char
  | .intV n => intChars n
  | .floatV q => pyFloatChars q
  | .boolV b => if b then "True".data else "False".data

/-- Result of the division/multiplication phase: a finite float or
`float('inf')` (produced by its explicit division-by-zero rule). -/
inductive PyFl
  | fin (q : ℚ)
  | inf
  deriving DecidableEq, Repr

/-- Python `str()` of such a result (`str(float('inf')) = "inf"`). -/
def pyFlChars : PyFl → List Char
  | .fin q => pyFloatChars q
  | .inf => "inf".data

/-! ### Models of the regex searches in `get_correct_steps`

Each of the four reduction loops calls `re.search` with a fixed pattern.
`re.search` returns the match at the smallest starting position; at a fixed
position the patterns below are deterministic maximal-munch (every
quantifier is over digit/space classes whose possible backtrackings are
immediately refuted by the following literal), so each is modelled by a
positionwise matcher plus an ascending scan. -/

/-- Match `\d+\.?\d*` (unsigned decimal literal) at the start; returns the
matched text and the remaining characters. -/
def numLitU (cs : List Char) : Option (List Char × List Char) :=
  let ds := cs.takeWhile Char.isDigit
  let r1 := cs.dropWhile Char.isDigit
  if ds.isEmpty then none
  else match r1 with
    | '.' :: r2 =>
      let fs := r2.takeWhile Char.isDigit
      let r3 := r2.dropWhile Char.isDigit
      some (ds ++ '.' :: fs, r3)
    | _ => some (ds, r1)

/-- Match `-?\d+\.?\d*` (signed decimal literal) at the start. -/
def numLit (cs : List Char) : Option (List Char × List Char) :=
  match cs with
  | '-' :: r => (numLitU r).map (fun p => ('-' :: p.1, p.2))
  | _ => numLitU cs

/-- Python `float()` of text matched by `\d+\.?\d*`. -/
def uLitVal (m : List Char) : ℚ :=
  let ds := m.takeWhile Char.isDigit
  let r1 := m.dropWhile Char.isDigit
  match r1 with
  | '.' :: fs => Rat.divInt ((natOfDigits (ds ++ fs) : ℤ)) ((10 : ℤ) ^ fs.length)
  | _ => ((natOfDigits ds : ℕ) : ℚ)

/-- Python `float()` of text matched by `-?\d+\.?\d*`. -/
def litVal (m : List Char) : ℚ :=
  match m with
  | '-' :: r => qNeg (uLitVal r)
  | _ => uLitVal m

/-- A match of `(-?\d+\.?\d*)\s*(op)\s*(-?\d+\.?\d*)`: the two operand
texts, the whitespace runs, and the operator character. -/
structure BinM where
  g1 : List Char
  ws1 : List Char
  op : Char
  ws2 : List Char
  g3 : List Char
  deriving DecidableEq, Repr

/-- Total length of the matched text (`match.end() - match.start()`). -/
def BinM.len (m : BinM) : ℕ :=
  m.g1.length + m.ws1.length + 1 + m.ws2.length + m.g3.length

/-- The matched text (`match.group(0)`). -/
def BinM.group0 (m : BinM) : List Char :=
  m.g1 ++ m.ws1 ++ m.op :: (m.ws2 ++ m.g3)

/-- Match the binary-operation pattern at the start of `cs`, with operator
class `isOp` (`[\*/]` for the division/multiplication loop, `[\+\-]` for the
addition/subtraction loop). -/
def binAt (isOp : Char → Bool) (cs : List Char) : Option BinM :=
  match numLit cs with
  | none => none
  | some (g1, r1) =>
    let ws1 := r1.takeWhile isPySpace
    let r2 := r1.dropWhile isPySpace
    match r2 with
    | c :: r3 =>
      if isOp c then
        let ws2 := r3.takeWhile isPySpace
        let r4 := r3.dropWhile isPySpace
        match numLit r4 with
        | some (g3, _) => some ⟨g1, ws1, c, ws2, g3⟩
        | none => none
      else none
    | [] => none

/-- `re.search` for the binary-operation pattern: the match at the smallest
starting position, returned with that position. -/
def searchBin (isOp : Char → Bool) : List Char → Option (ℕ × BinM)
  | [] => none
  | c :: cs =>
    match binAt isOp (c :: cs) with
    | some m => some (0, m)
    | none => (searchBin isOp cs).map (fun p => (p.1 + 1, p.2))

/-- A match of `(\d+\.?\d*)\*\*(\d+\.?\d*)` (the exponent pattern: both
operands unsigned, no whitespace). -/
structure ExpM where
  g1 : List Char
  g2 : List Char
  deriving DecidableEq, Repr

/-- Length of the matched exponent text. -/
def ExpM.len (m : ExpM) : ℕ := m.g1.length + 2 + m.g2.length

/-- Match the exponent pattern at the start of `cs`. -/
def expAt (cs : List Char) : Option ExpM :=
  match numLitU cs with
  | some (g1, r1) =>
    match r1 with
    | '*' :: '*' :: r2 =>
      match numLitU r2 with
      | some (g2, _) => some ⟨g1, g2⟩
      | none => none
    | _ => none
  | none => none

/-- `re.search` for the exponent pattern. -/
def searchExp : List Char → Option (ℕ × ExpM)
  | [] => none
  | c :: cs =>
    match expAt (c :: cs) with
    | some m => some (0, m)
    | none => (searchExp cs).map (fun p => (p.1 + 1, p.2))

/-- Match `\([^()]+\)` at the start of `cs`: an opening bracket, at least one
non-bracket character, then a closing bracket; returns the interior. -/
def brAt (cs : List Char) : Option (List Char) :=
  match cs with
  | '(' :: rest =>
    let run := rest.takeWhile (fun c => !(c = '(' || c = ')'))
    let rem := rest.dropWhile (fun c => !(c = '(' || c = ')'))
    if run.isEmpty then none
    else match rem with
      | ')' :: _ => some run
      | _ => none
  | _ => none

/-- `re.search(r'\([^()]+\)', ...)`: the left-most innermost bracket pair. -/
def searchBr : List Char → Option (ℕ × List Char)
  | [] => none
  | c :: cs =>
    match brAt (c :: cs) with
    | some run => some (0, run)
    | none => (searchBr cs).map (fun p => (p.1 + 1, p.2))

/-- Python `'+' in s` for a character. -/
def hasChar (c : Char) (cs : List Char) : Bool := cs.any (· = c)

/-- Python `'**' in s`. -/
def hasStarStar : List Char → Bool
  | c1 :: c2 :: rest => (c1 = '*' && c2 = '*') || hasStarStar (c2 :: rest)
  | _ => false

/-! ### The step-by-step reducer `get_correct_steps` (lines 66-161) -/

/-- One recorded simplification step (`{'step': .., 'expression': ..,
'description': ..}`). -/
structure Step where
  step : ℕ
  expression : String
  description : String
  deriving DecidableEq, Repr

/-- Operator class of the division/multiplication pattern (`[\*/]`). -/
def isMDOp (c : Char) : Bool := c = '*' || c = '/'

/-- Operator class of the addition/subtraction pattern (`[\+\-]`). -/
def isASOp (c : Char) : Bool := c = '+' || c = '-'

/-- Phase state: accumulated steps, next step number, working string. -/
abbrev PhSt := List Step × ℕ × List Char

/-- One iteration of a reduction loop: from the current step counter and
working string, either produce the recorded `Step` together with the new
working string, or stop (loop condition false, no regex match, or the inner
`try` failed). -/
abbrev StepFn := ℕ → List Char → Option (Step × List Char)

/-- The common `while` shape of the four reduction loops: run one iteration,
append its step, increment the counter and continue; stop when the iteration
yields nothing.  `fuel` caps the modelled iterations; every universal claim
proved below is fuel-independent. -/
def phaseLoop (stepFn : StepFn) : ℕ → PhSt → PhSt
  | 0, st => st
  | fuel + 1, (steps, n, cur) =>
    match stepFn n cur with
    | some (st, newE) => phaseLoop stepFn fuel (steps ++ [st], n + 1, newE)
    | none => (steps, n, cur)

/-- One iteration of the bracket loop (lines 78-95): while `'('` occurs,
evaluate the left-most innermost pair and splice the result in; a failed
search or failed interior evaluation breaks the loop. -/
def bracketStep : StepFn := fun n cur =>
  if hasChar '(' cur then
    match searchBr cur with
    | some (i, interior) =>
      match pyEvalChars interior with
      | some v =>
        let repl := pyValChars v
        let newE := cur.take i ++ repl ++ cur.drop (i + interior.length + 2)
        some (⟨n, String.mk newE,
          "Brackets: (" ++ String.mk interior ++ ") = " ++ String.mk repl⟩, newE)
      | none => none
    | none => none
  else none

/-- Bracket reduction loop. -/
def bracketPhase : ℕ → PhSt → PhSt := phaseLoop bracketStep

/-- One iteration of the exponent loop (lines 98-114): while `'**'` occurs,
reduce the left-most `base**exponent` pair of unsigned literals via
`float(g1) ** float(g2)`. -/
def expStep : StepFn := fun n cur =>
  if hasStarStar cur then
    match searchExp cur with
    | some (i, m) =>
      match pvPow (.floatV (uLitVal m.g1)) (.floatV (uLitVal m.g2)) with
      | some w =>
        let repl := pyFloatChars w.toQ
        let newE := cur.take i ++ repl ++ cur.drop (i + m.len)
        some (⟨n, String.mk newE,
          "Orders/Exponents: " ++ String.mk (m.g1 ++ '*' :: '*' :: m.g2) ++
            " = " ++ String.mk repl⟩, newE)
      | none => none
    | none => none
  else none

/-- Exponent reduction loop. -/
def expPhase : ℕ → PhSt → PhSt := phaseLoop expStep

/-- Result of one division/multiplication reduction (line 123):
`a * b if op == '*' else a / b if b != 0 else float('inf')`. -/
def mdResult (m : BinM) : PyFl :=
  let a := litVal m.g1
  let b := litVal m.g3
  if m.op = '*' then .fin (qMul a b)
  else if b = 0 then .inf
  else .fin (qDiv a b)

/-- One iteration of the division/multiplication loop (lines 117-135): while
`'*'` or `'/'` occurs, reduce the left-most signed `a (*|/) b` pair. -/
def mdStep : StepFn := fun n cur =>
  if hasChar '*' cur || hasChar '/' cur then
    match searchBin isMDOp cur with
    | some (i, m) =>
      let repl := pyFlChars (mdResult m)
      let newE := cur.take i ++ repl ++ cur.drop (i + m.len)
      some (⟨n, String.mk newE,
        "Division/Multiplication: " ++ String.mk m.group0 ++ " = " ++ String.mk repl⟩, newE)
    | none => none
  else none

/-- Division/multiplication reduction loop. -/
def mdPhase : ℕ → PhSt → PhSt := phaseLoop mdStep

/-- Result of one addition/subtraction reduction (line 145). -/
def asResult (m : BinM) : ℚ :=
  let a := litVal m.g1
  let b := litVal m.g3
  if m.op = '+' then qAdd a b else qSub a b

/-- One iteration of the addition/subtraction loop (lines 138-157): while
`'+'` or `'-'` occurs in `current[1:]`, search the pattern in `current[1:]`
and splice with offset `1`:
`current[:start+1] + str(result) + current[end+1:]`. -/
def asStep : StepFn := fun n cur =>
  if hasChar '+' (cur.drop 1) || hasChar '-' (cur.drop 1) then
    match searchBin isASOp (cur.drop 1) with
    | some (i, m) =>
      let repl := pyFloatChars (asResult m)
      let newE := cur.take (i + 1) ++ repl ++ cur.drop (i + 1 + m.len)
      some (⟨n, String.mk newE,
        "Addition/Subtraction: " ++ String.mk m.group0 ++ " = " ++ String.mk repl⟩, newE)
    | none => none
  else none

/-- Addition/subtraction reduction loop. -/
def asPhase : ℕ → PhSt → PhSt := phaseLoop asStep

/-- Step 0 recorded before any reduction (line 68): the original, unmodified
input with a fixed description. -/
def step0 (expr : String) : Step := ⟨0, expr, "Original expression"⟩

/-- Embedding of `BODMASSolver.get_correct_steps` (lines 66-161): record
step 0, strip spaces (`expr.replace(' ', '')`), then run the four reduction
loops in order, each fail-soft.  Nothing in the loop bodies outside the
inner `try` blocks can raise in this fragment, so the function is total and
the outer `except` (line 160) is unreachable; the per-phase fuel caps the
modelled iterations and every universal claim proved below is
fuel-independent. -/
def get_correct_steps (expr : String) : List Step :=
  let clean := expr.data.filter (fun c => !(c = ' '))
  let f := expr.data.length + 64
  (asPhase f (mdPhase f (expPhase f (bracketPhase f ([step0 expr], 1, clean))))).1

end BODMAS

namespace BODMAS

/-! ### The answer validator `validate_answer` (lines 39-64) -/

/-- Result dictionary of `validate_answer`: the invalid-expression branch
(lines 44-49) carries `is_correct = False`, an error message and a `None`
correct answer; the success branch (lines 53-58) carries the comparison
outcome and both numeric values.  Keys absent from a branch are `none`. -/
structure VResult where
  is_correct : Bool
  correct_answer : Option ℚ
  student_answer : Option ℚ
  error : Option String
  deriving DecidableEq, Repr

/-- The tolerance literal `0.0001` of line 52. -/
def validTol : ℚ := Rat.divInt 1 10000

/-- Embedding of `BODMASSolver.validate_answer` (lines 39-64): solve, fail
with `'Invalid expression'` when `solve` returned `None`, otherwise compare
`abs(student - correct) < 0.0001`.  Nothing in the success path of this
fragment raises, so the outer `except` branch (lines 59-64) is not
reachable. -/
def validate_answer (expr : String) (student : ℚ) : VResult :=
  match pySolve expr with
  | none => ⟨false, none, none, some "Invalid expression"⟩
  | some c => ⟨decide (qAbs (qSub student c) < validTol), some c, some student, none⟩

end BODMAS

namespace BODMAS

/-! ### Structural invariants of the reduction loops

Each loop only ever appends a step carrying the current counter and
increments the counter, so the accumulated list is extended (never
rewritten) and recorded indices stay `0, 1, 2, ...`. -/

/-- The counter equals the number of accumulated steps and the recorded
step indices are exactly `0, 1, ..., length - 1`. -/
def StepInv (st : PhSt) : Prop :=
  st.2.1 = st.1.length ∧ st.1.map Step.step = List.range st.1.length

theorem stepInv_push {steps : List Step} {n : ℕ} {cur cur' : List Char} {st : Step}
    (h : StepInv (steps, n, cur)) (hst : st.step = n) :
    StepInv (steps ++ [st], n + 1, cur') := by
  obtain ⟨h1, h2⟩ := h
  simp only [StepInv] at h1 h2 ⊢
  subst h1
  refine ⟨by simp, ?_⟩
  simp [List.range_succ, h2, hst]

theorem phaseLoop_extends (f : StepFn) (fuel : ℕ) :
    ∀ st : PhSt, ∃ extra, (phaseLoop f fuel st).1 = st.1 ++ extra := by
  induction fuel with
  | zero => exact fun st => ⟨[], by simp [phaseLoop]⟩
  | succ k ih =>
    rintro ⟨steps, n, cur⟩
    simp only [phaseLoop]
    cases h : f n cur with
    | none => exact ⟨[], by simp⟩
    | some p =>
      obtain ⟨st, newE⟩ := p
      obtain ⟨extra, he⟩ := ih (steps ++ [st], n + 1, newE)
      exact ⟨st :: extra, by rw [he]; simp⟩

theorem phaseLoop_inv (f : StepFn)
    (hf : ∀ n cur st newE, f n cur = some (st, newE) → st.step = n) (fuel : ℕ) :
    ∀ st : PhSt, StepInv st → StepInv (phaseLoop f fuel st) := by
  induction fuel with
  | zero => intro st h; simpa [phaseLoop] using h
  | succ k ih =>
    rintro ⟨steps, n, cur⟩ h
    simp only [phaseLoop]
    cases hm : f n cur with
    | none => exact h
    | some p =>
      obtain ⟨st, newE⟩ := p
      exact ih _ (stepInv_push h (hf n cur st newE hm))

theorem bracketStep_step {n : ℕ} {cur : List Char} {st : Step} {newE : List Char}
    (h : bracketStep n cur = some (st, newE)) : st.step = n := by
  unfold bracketStep at h
  split at h
  · cases hs : searchBr cur with
    | none => rw [hs] at h; exact absurd h (by simp)
    | some p =>
      rw [hs] at h
      obtain ⟨i, interior⟩ := p
      dsimp only at h
      cases hv : pyEvalChars interior with
      | none => rw [hv] at h; exact absurd h (by simp)
      | some v =>
        rw [hv] at h
        simp only [Option.some.injEq, Prod.mk.injEq] at h
        rw [← h.1]
  · exact absurd h (by simp)

theorem expStep_step {n : ℕ} {cur : List Char} {st : Step} {newE : List Char}
    (h : expStep n cur = some (st, newE)) : st.step = n := by
  unfold expStep at h
  split at h
  · cases hs : searchExp cur with
    | none => rw [hs] at h; exact absurd h (by simp)
    | some p =>
      rw [hs] at h
      obtain ⟨i, m⟩ := p
      dsimp only at h
      cases hv : pvPow (.floatV (uLitVal m.g1)) (.floatV (uLitVal m.g2)) with
      | none => rw [hv] at h; exact absurd h (by simp)
      | some w =>
        rw [hv] at h
        simp only [Option.some.injEq, Prod.mk.injEq] at h
        rw [← h.1]
  · exact absurd h (by simp)

theorem mdStep_step {n : ℕ} {cur : List Char} {st : Step} {newE : List Char}
    (h : mdStep n cur = some (st, newE)) : st.step = n := by
  unfold mdStep at h
  split at h
  · cases hs : searchBin isMDOp cur with
    | none => rw [hs] at h; exact absurd h (by simp)
    | some p =>
      rw [hs] at h
      obtain ⟨i, m⟩ := p
      simp only [Option.some.injEq, Prod.mk.injEq] at h
      rw [← h.1]
  · exact absurd h (by simp)

theorem asStep_step {n : ℕ} {cur : List Char} {st : Step} {newE : List Char}
    (h : asStep n cur = some (st, newE)) : st.step = n := by
  unfold asStep at h
  split at h
  · cases hs : searchBin isASOp (cur.drop 1) with
    | none => rw [hs] at h; exact absurd h (by simp)
    | some p =>
      rw [hs] at h
      obtain ⟨i, m⟩ := p
      simp only [Option.some.injEq, Prod.mk.injEq] at h
      rw [← h.1]
  · exact absurd h (by simp)

/-- The full trace extends `[step0 expr]`: reduction failures inside the
loops only stop early, they never discard accumulated steps. -/
theorem get_correct_steps_extends (expr : String) :
    ∃ extra, get_correct_steps expr = step0 expr :: extra := by
  unfold get_correct_steps bracketPhase expPhase mdPhase asPhase
  obtain ⟨e1, h1⟩ := phaseLoop_extends bracketStep (expr.data.length + 64)
    ([step0 expr], 1, expr.data.filter (fun c => !(c = ' ')))
  obtain ⟨e2, h2⟩ := phaseLoop_extends expStep (expr.data.length + 64)
    (phaseLoop bracketStep (expr.data.length + 64)
      ([step0 expr], 1, expr.data.filter (fun c => !(c = ' '))))
  obtain ⟨e3, h3⟩ := phaseLoop_extends mdStep (expr.data.length + 64)
    (phaseLoop expStep (expr.data.length + 64)
      (phaseLoop bracketStep (expr.data.length + 64)
        ([step0 expr], 1, expr.data.filter (fun c => !(c = ' ')))))
  obtain ⟨e4, h4⟩ := phaseLoop_extends asStep (expr.data.length + 64)
    (phaseLoop mdStep (expr.data.length + 64)
      (phaseLoop expStep (expr.data.length + 64)
        (phaseLoop bracketStep (expr.data.length + 64)
          ([step0 expr], 1, expr.data.filter (fun c => !(c = ' '))))))
  refine ⟨e1 ++ e2 ++ e3 ++ e4, ?_⟩
  rw [h4, h3, h2, h1]
  simp

/-- The full trace carries step indices `0, 1, 2, ...` in order. -/
theorem get_correct_steps_indices (expr : String) :
    (get_correct_steps expr).map Step.step =
      List.range (get_correct_steps expr).length := by
  unfold get_correct_steps bracketPhase expPhase mdPhase asPhase
  have h0 : StepInv ([step0 expr], 1, expr.data.filter (fun c => !(c = ' '))) := by
    constructor
    · simp
    · simp [step0, List.range_succ]
  exact (phaseLoop_inv asStep (fun n cur st newE => asStep_step) _ _
    (phaseLoop_inv mdStep (fun n cur st newE => mdStep_step) _ _
      (phaseLoop_inv expStep (fun n cur st newE => expStep_step) _ _
        (phaseLoop_inv bracketStep (fun n cur st newE => bracketStep_step) _ _ h0)))).2

end BODMAS

namespace BODMAS

/-! ### Characterisation of the binary-operation search

`searchBin` models `re.search`: it returns the match at the smallest
starting position.  The decomposition lemma recovers the matched text as a
factorisation of the scanned string, which locates the chosen operator
character inside the working string. -/

theorem numLitU_decomp {cs g r : List Char} (h : numLitU cs = some (g, r)) :
    cs = g ++ r ∧ 1 ≤ g.length := by
  have hsplit := List.takeWhile_append_dropWhile (p := Char.isDigit) (l := cs)
  unfold numLitU at h
  dsimp only at h
  split at h
  · simp at h
  next hds =>
    have hne : 1 ≤ (cs.takeWhile Char.isDigit).length := by
      cases hcs : cs.takeWhile Char.isDigit with
      | nil => rw [hcs] at hds; simp at hds
      | cons a l => simp
    split at h
    next r2 heq =>
      simp only [Option.some.injEq, Prod.mk.injEq] at h
      obtain ⟨hg, hr⟩ := h
      subst hg; subst hr
      have hsplit2 := List.takeWhile_append_dropWhile (p := Char.isDigit) (l := r2)
      refine ⟨?_, by simp only [List.length_append, List.length_cons]; omega⟩
      conv_lhs => rw [← hsplit, heq, ← hsplit2]
      simp
    next =>
      simp only [Option.some.injEq, Prod.mk.injEq] at h
      obtain ⟨hg, hr⟩ := h
      subst hg; subst hr
      exact ⟨hsplit.symm, hne⟩

theorem numLit_decomp {cs g r : List Char} (h : numLit cs = some (g, r)) :
    cs = g ++ r ∧ 1 ≤ g.length := by
  unfold numLit at h
  split at h
  next c r0 =>
    cases hu : numLitU r0 with
    | none => rw [hu] at h; simp at h
    | some p =>
      rw [hu] at h
      obtain ⟨g0, r1⟩ := p
      simp only [Option.map_some', Option.some.injEq, Prod.mk.injEq] at h
      obtain ⟨hg, hr⟩ := h
      subst hg; subst hr
      obtain ⟨hd, hl⟩ := numLitU_decomp hu
      constructor
      · rw [hd]
        rfl
      · simp only [List.length_cons]
        omega
  next => exact numLitU_decomp h

theorem binAt_decomp {isOp : Char → Bool} {cs : List Char} {m : BinM}
    (h : binAt isOp cs = some m) :
    (∃ rest, cs = m.group0 ++ rest) ∧ isOp m.op = true ∧ 1 ≤ m.g1.length := by
  unfold binAt at h
  cases h1 : numLit cs with
  | none => rw [h1] at h; simp at h
  | some p1 =>
    rw [h1] at h
    obtain ⟨g1, r1⟩ := p1
    dsimp only at h
    obtain ⟨hd1, hl1⟩ := numLit_decomp h1
    have hsplit1 := List.takeWhile_append_dropWhile (p := isPySpace) (l := r1)
    split at h
    next c r3 heq =>
      split at h
      next hop =>
        cases h3 : numLit (r3.dropWhile isPySpace) with
        | none => rw [h3] at h; simp at h
        | some p3 =>
          rw [h3] at h
          obtain ⟨g3, rr⟩ := p3
          simp only [Option.some.injEq] at h
          subst h
          obtain ⟨hd3, hl3⟩ := numLit_decomp h3
          have hsplit3 := List.takeWhile_append_dropWhile (p := isPySpace) (l := r3)
          refine ⟨⟨rr, ?_⟩, hop, hl1⟩
          simp only [BinM.group0]
          conv_lhs => rw [hd1, ← hsplit1, heq, ← hsplit3, hd3]
          simp
      next => simp at h
    next => simp at h

theorem searchBin_spec {isOp : Char → Bool} :
    ∀ {cs : List Char} {i : ℕ} {m : BinM}, searchBin isOp cs = some (i, m) →
      binAt isOp (cs.drop i) = some m ∧ ∀ j, j < i → binAt isOp (cs.drop j) = none := by
  intro cs
  induction cs with
  | nil => intro i m h; simp [searchBin] at h
  | cons c cs ih =>
    intro i m h
    rw [searchBin] at h
    cases hb : binAt isOp (c :: cs) with
    | some m0 =>
      rw [hb] at h
      simp only [Option.some.injEq, Prod.mk.injEq] at h
      obtain ⟨hi, hm⟩ := h
      subst hm
      refine ⟨?_, ?_⟩
      · rw [← hi]; simpa using hb
      · intro j hj; omega
    | none =>
      rw [hb] at h
      cases hs : searchBin isOp cs with
      | none => rw [hs] at h; simp at h
      | some p =>
        rw [hs] at h
        obtain ⟨i0, m0⟩ := p
        simp only [Option.map_some', Option.some.injEq, Prod.mk.injEq] at h
        obtain ⟨hi, hm⟩ := h
        subst hm
        obtain ⟨hfound, hmin⟩ := ih hs
        subst hi
        refine ⟨by simpa using hfound, ?_⟩
        intro j hj
        cases j with
        | zero => simpa using hb
        | succ j0 => simpa using hmin j0 (by omega)

end BODMAS

namespace BODMAS

/-! ### Bracket-free expressions and the spec's two-pass evaluation

The precedence-law claim quantifies over well-formed bracket-free
expressions over `+ - * /`.  `FlatExpr` is such an expression (decimal
natural-number literals, as in the spec's examples); `render` prints it the
way the spec writes them (`"2 + 3 * 4"`); `specEval` is the spec's
evaluation order, written from its words. -/

/-- The four binary operators of the precedence-law claim. -/
inductive FOp
  | fadd | fsub | fmul | fdiv
  deriving DecidableEq, Repr

/-- Operator character used when rendering. -/
def FOp.toChar : FOp → Char
  | .fadd => '+'
  | .fsub => '-'
  | .fmul => '*'
  | .fdiv => '/'

/-- Corresponding token of the `eval` model. -/
def FOp.toBinOp : FOp → BinOp
  | .fadd => .add
  | .fsub => .sub
  | .fmul => .mul
  | .fdiv => .div

/-- A well-formed bracket-free expression over `+ - * /`: a leading literal
followed by operator/literal pairs. -/
structure FlatExpr where
  first : ℕ
  rest : List (FOp × ℕ)

/-- Character rendering, with single spaces as in the spec's examples. -/
def renderChars (e : FlatExpr) : List Char :=
  natChars e.first ++ (e.rest.map (fun p => ' ' :: p.1.toChar :: ' ' :: natChars p.2)).flatten

/-- String rendering of a bracket-free expression. -/
def render (e : FlatExpr) : String := String.mk (renderChars e)

/-- Modelled from the spec: "first applying all * and / operations
left-to-right".  A single left-to-right pass that collapses every
multiplication/division run into its value (division by exactly zero
fails), leaving the `+`/`-` structure untouched. -/
def starSlashPass (c : ℚ) : List (FOp × ℚ) → Option (ℚ × List (FOp × ℚ))
  | [] => some (c, [])
  | (o, n) :: rest =>
    match o with
    | .fmul => starSlashPass (c * n) rest
    | .fdiv => if n = 0 then none else starSlashPass (c / n) rest
    | _ => (starSlashPass n rest).map (fun p => (c, (o, p.1) :: p.2))

/-- Modelled from the spec: "then all + and - operations left-to-right". -/
def plusMinusPass (c : ℚ) : List (FOp × ℚ) → ℚ
  | [] => c
  | (o, n) :: rest => plusMinusPass (if o = FOp.fadd then c + n else c - n) rest

/-- Modelled from the spec (§8 precedence law): the value of a bracket-free
expression obtained by running the `*`/`/` pass and then the `+`/`-` pass. -/
def specEval (e : FlatExpr) : Option ℚ :=
  (starSlashPass (e.first : ℚ) (e.rest.map (fun p => (p.1, (p.2 : ℚ))))).map
    (fun p => plusMinusPass p.1 p.2)

/-! ### Decimal rendering of naturals parses back -/

/-- The digit character of `d`. -/
def digitChr (d : ℕ) : Char := Char.ofNat (48 + d)

theorem natDigitsAux_eq :
    ∀ fuel n acc, n < fuel →
      natDigitsAux fuel n acc = ((Nat.digits 10 n).map digitChr).reverse ++ acc := by
  intro fuel
  induction fuel with
  | zero => intro n acc h; omega
  | succ f ih =>
    intro n acc h
    rw [natDigitsAux]
    by_cases h0 : n = 0
    · subst h0; simp
    · have hlt : n / 10 < f := by
        have : n / 10 < n := Nat.div_lt_self (Nat.pos_of_ne_zero h0) (by norm_num)
        omega
      rw [if_neg h0, ih (n / 10) _ hlt,
        Nat.digits_def' (by norm_num : 1 < 10) (Nat.pos_of_ne_zero h0)]
      simp [digitChr]

theorem natChars_eq (n : ℕ) (h : 0 < n) :
    natChars n = ((Nat.digits 10 n).map digitChr).reverse := by
  rw [natChars, if_neg (by omega), natDigitsAux_eq (n + 1) n [] (by omega)]
  simp

theorem digitChr_isDigit {d : ℕ} (h : d < 10) : (digitChr d).isDigit = true := by
  interval_cases d <;> decide

theorem digitChr_val {d : ℕ} (h : d < 10) : (digitChr d).toNat - 48 = d := by
  interval_cases d <;> decide

theorem digitChr_ne_zero {d : ℕ} (h : d < 10) (hd : d ≠ 0) : digitChr d ≠ '0' := by
  interval_cases d <;> simp_all <;> decide

theorem natChars_digits (n : ℕ) : ∀ c ∈ natChars n, c.isDigit = true := by
  rcases Nat.eq_zero_or_pos n with h | h
  · subst h; intro c hc; simp [natChars] at hc; subst hc; decide
  · rw [natChars_eq n h]
    intro c hc
    simp only [List.mem_reverse, List.mem_map] at hc
    obtain ⟨d, hd, rfl⟩ := hc
    exact digitChr_isDigit (Nat.digits_lt_base (by norm_num) hd)

theorem natChars_ne_nil (n : ℕ) : natChars n ≠ [] := by
  rcases Nat.eq_zero_or_pos n with h | h
  · subst h; simp [natChars]
  · rw [natChars_eq n h]
    simp [Nat.digits_ne_nil_iff_ne_zero, Nat.pos_iff_ne_zero.mp h]

theorem natOfDigits_reverse_map (l : List ℕ) (h : ∀ d ∈ l, d < 10) :
    natOfDigits ((l.map digitChr).reverse) = Nat.ofDigits 10 l := by
  induction l with
  | nil => simp [natOfDigits, Nat.ofDigits]
  | cons d l ih =>
    have hd : d < 10 := h d (by simp)
    rw [List.map_cons, List.reverse_cons]
    have : natOfDigits ((l.map digitChr).reverse ++ [digitChr d]) =
        10 * natOfDigits ((l.map digitChr).reverse) + ((digitChr d).toNat - 48) := by
      simp [natOfDigits, List.foldl_append]
    rw [this, ih (fun x hx => h x (by simp [hx])), digitChr_val hd, Nat.ofDigits_cons]
    ring

theorem natOfDigits_natChars (n : ℕ) : natOfDigits (natChars n) = n := by
  rcases Nat.eq_zero_or_pos n with h | h
  · subst h; decide
  · rw [natChars_eq n h,
      natOfDigits_reverse_map _ (fun d hd => Nat.digits_lt_base (by norm_num) hd),
      Nat.ofDigits_digits]

theorem natChars_no_leading_zero (n : ℕ) :
    ¬(1 < (natChars n).length ∧ (natChars n).head? = some '0' ∧
      (natChars n).any (· ≠ '0') = true) := by
  rcases Nat.eq_zero_or_pos n with h | h
  · subst h; simp [natChars]
  · rintro ⟨h1, h2, h3⟩
    have hn0 : n ≠ 0 := by omega
    have hdig : Nat.digits 10 n ≠ [] := Nat.digits_ne_nil_iff_ne_zero.mpr hn0
    rw [natChars_eq n h, List.head?_reverse, List.getLast?_map,
      List.getLast?_eq_getLast _ hdig] at h2
    simp only [Option.map_some', Option.some.injEq] at h2
    have hlast := Nat.getLast_digit_ne_zero 10 hn0
    have hlt : (Nat.digits 10 n).getLast hdig < 10 :=
      Nat.digits_lt_base (by norm_num) (List.getLast_mem _)
    exact digitChr_ne_zero hlt hlast h2

end BODMAS

namespace BODMAS

/-! ### Tokenizing a rendered bracket-free expression -/

/-- Characters of the rendered operator/literal pairs. -/
def tailChars (rest : List (FOp × ℕ)) : List Char :=
  (rest.map (fun p => ' ' :: p.1.toChar :: ' ' :: natChars p.2)).flatten

/-- Tokens of the operator/literal pairs. -/
def tailToks (rest : List (FOp × ℕ)) : List Tok :=
  (rest.map (fun p => [Tok.op p.1.toBinOp, Tok.num (.intV p.2)])).flatten

/-- Token list of a rendered bracket-free expression. -/
def flatToks (e : FlatExpr) : List Tok :=
  Tok.num (.intV e.first) :: tailToks e.rest

theorem renderChars_eq (e : FlatExpr) :
    renderChars e = natChars e.first ++ tailChars e.rest := rfl

/-- What may follow a rendered literal: nothing, or a space. -/
def SepOK (r : List Char) : Prop := r = [] ∨ ∃ t, r = ' ' :: t

theorem takeWhile_app_of_all {p : Char → Bool} :
    ∀ xs ys, (∀ x ∈ xs, p x = true) →
      List.takeWhile p (xs ++ ys) = xs ++ List.takeWhile p ys ∧
      List.dropWhile p (xs ++ ys) = List.dropWhile p ys := by
  intro xs
  induction xs with
  | nil => intro ys h; simp
  | cons a l ih =>
    intro ys h
    have ha : p a = true := h a (by simp)
    have h2 := ih ys (fun x hx => h x (by simp [hx]))
    simp [List.takeWhile_cons, List.dropWhile_cons, ha, h2.1, h2.2]

theorem isPySpace_of_digit {c : Char} (h : c.isDigit = true) : isPySpace c = false := by
  unfold isPySpace
  by_contra hc
  simp only [Bool.not_eq_false, Bool.or_eq_true, decide_eq_true_eq] at hc
  rcases hc with ((((h1 | h1) | h1) | h1) | h1) | h1 <;> subst h1 <;>
    exact absurd h (by decide)

theorem readNum_render {n : ℕ} {r : List Char} (hr : SepOK r) :
    readNum (natChars n ++ r) = some (Tok.num (.intV n), r) := by
  have hall := natChars_digits n
  have hstop : List.takeWhile Char.isDigit r = [] ∧ List.dropWhile Char.isDigit r = r := by
    rcases hr with rfl | ⟨t, rfl⟩
    · simp
    · exact ⟨by rw [List.takeWhile_cons, if_neg (by decide)],
        by rw [List.dropWhile_cons, if_neg (by decide)]⟩
  obtain ⟨ht, hd⟩ := takeWhile_app_of_all (natChars n) r hall
  have hempty : (natChars n).isEmpty = false := by
    cases h : natChars n with
    | nil => exact absurd h (natChars_ne_nil n)
    | cons a b => rfl
  have hlz := natChars_no_leading_zero n
  have hrh : ∀ c : Char, r.head? = some c → (c = '.' ∨ c = 'e' ∨ c = 'E') → False := by
    rcases hr with rfl | ⟨t, rfl⟩
    · intro c hc; simp at hc
    · intro c hc hor
      simp only [List.head?_cons, Option.some.injEq] at hc
      subst hc
      rcases hor with h | h | h <;> exact absurd h (by decide)
  rw [readNum]
  dsimp only
  rw [ht, hstop.1, List.append_nil, hd, hstop.2]
  rw [if_neg (fun hh => hrh _ hh (Or.inl rfl)), if_neg (by simp [hempty]), finishNum]
  rw [if_neg (by rintro (hh | hh) <;> [exact hrh _ hh (Or.inr (Or.inl rfl));
        exact hrh _ hh (Or.inr (Or.inr rfl))]),
    if_neg (by simp), if_neg hlz, natOfDigits_natChars]

theorem tok_space (f : ℕ) (cs : List Char) :
    tokenizeAux (f + 1) (' ' :: cs) = tokenizeAux f cs := rfl

theorem tok_plus (f : ℕ) (cs : List Char) :
    tokenizeAux (f + 1) ('+' :: cs) = (tokenizeAux f cs).map (Tok.op .add :: ·) := rfl

theorem tok_minus (f : ℕ) (cs : List Char) :
    tokenizeAux (f + 1) ('-' :: cs) = (tokenizeAux f cs).map (Tok.op .sub :: ·) := rfl

theorem tok_star_sp (f : ℕ) (cs : List Char) :
    tokenizeAux (f + 1) ('*' :: ' ' :: cs) =
      (tokenizeAux f (' ' :: cs)).map (Tok.op .mul :: ·) := rfl

theorem tok_slash_sp (f : ℕ) (cs : List Char) :
    tokenizeAux (f + 1) ('/' :: ' ' :: cs) =
      (tokenizeAux f (' ' :: cs)).map (Tok.op .div :: ·) := rfl

theorem tok_digit_step (f : ℕ) {c : Char} (cs : List Char) (h : c.isDigit = true) :
    tokenizeAux (f + 1) (c :: cs) =
      (readNum (c :: cs)).bind (fun p => (tokenizeAux f p.2).map (p.1 :: ·)) := by
  rw [tokenizeAux, if_neg (by rw [isPySpace_of_digit h]; simp), if_pos (by simp [h])]

theorem tokenizeAux_num (f : ℕ) (n : ℕ) {r : List Char} (hr : SepOK r) :
    tokenizeAux (f + 1) (natChars n ++ r) =
      (tokenizeAux f r).map (Tok.num (.intV n) :: ·) := by
  obtain ⟨c, nc, hnc⟩ : ∃ c nc, natChars n = c :: nc := by
    cases h : natChars n with
    | nil => exact absurd h (natChars_ne_nil n)
    | cons c nc => exact ⟨c, nc, rfl⟩
  have hc : c.isDigit = true := natChars_digits n c (by rw [hnc]; simp)
  have hread := readNum_render (n := n) hr
  rw [hnc] at hread ⊢
  rw [List.cons_append, tok_digit_step f _ hc, ← List.cons_append, hread]
  rfl

theorem SepOK_tailChars (rest : List (FOp × ℕ)) : SepOK (tailChars rest) := by
  cases rest with
  | nil => exact Or.inl rfl
  | cons p l => exact Or.inr ⟨_, rfl⟩

theorem tokenizeAux_tail :
    ∀ rest : List (FOp × ℕ), ∀ f, 4 * rest.length ≤ f →
      tokenizeAux f (tailChars rest) = some (tailToks rest) := by
  intro rest
  induction rest with
  | nil => intro f _; simp [tailChars, tailToks, tokenizeAux]
  | cons p l ih =>
    intro f hf
    obtain ⟨o, n⟩ := p
    obtain ⟨f', rfl⟩ : ∃ f', f = f' + 4 := ⟨f - 4, by simp at hf; omega⟩
    have hcons : tailChars ((o, n) :: l) =
        ' ' :: o.toChar :: ' ' :: (natChars n ++ tailChars l) := rfl
    have hih := ih f' (by simp at hf ⊢; omega)
    have hnum : tokenizeAux (f' + 2) (' ' :: (natChars n ++ tailChars l)) =
        (tokenizeAux f' (tailChars l)).map (Tok.num (.intV n) :: ·) := by
      rw [show f' + 2 = (f' + 1) + 1 from rfl, tok_space,
        tokenizeAux_num f' n (SepOK_tailChars l)]
    rw [hcons, show f' + 4 = (f' + 3) + 1 from rfl, tok_space]
    cases o with
    | fadd =>
      rw [show (FOp.fadd.toChar) = '+' from rfl,
        show f' + 3 = (f' + 2) + 1 from rfl, tok_plus, hnum, hih]
      simp [tailToks, FOp.toBinOp]
    | fsub =>
      rw [show (FOp.fsub.toChar) = '-' from rfl,
        show f' + 3 = (f' + 2) + 1 from rfl, tok_minus, hnum, hih]
      simp [tailToks, FOp.toBinOp]
    | fmul =>
      rw [show (FOp.fmul.toChar) = '*' from rfl,
        show f' + 3 = (f' + 2) + 1 from rfl, tok_star_sp, hnum, hih]
      simp [tailToks, FOp.toBinOp]
    | fdiv =>
      rw [show (FOp.fdiv.toChar) = '/' from rfl,
        show f' + 3 = (f' + 2) + 1 from rfl, tok_slash_sp, hnum, hih]
      simp [tailToks, FOp.toBinOp]

theorem tailChars_length (rest : List (FOp × ℕ)) :
    4 * rest.length ≤ (tailChars rest).length := by
  induction rest with
  | nil => simp [tailChars]
  | cons p l ih =>
    have h1 : 1 ≤ (natChars p.2).length := by
      cases h : natChars p.2 with
      | nil => exact absurd h (natChars_ne_nil p.2)
      | cons a b => simp
    have hc : tailChars (p :: l) =
        ' ' :: p.1.toChar :: ' ' :: (natChars p.2 ++ tailChars l) := rfl
    rw [hc]
    simp only [List.length_cons, List.length_append]
    omega

/-- Tokenizing a rendered bracket-free expression yields its token list. -/
theorem tokenize_render (e : FlatExpr) :
    tokenizeChars (renderChars e) = some (flatToks e) := by
  rw [tokenizeChars, renderChars_eq]
  have hlen := tailChars_length e.rest
  rw [show (natChars e.first ++ tailChars e.rest).length + 1 =
      (natChars e.first ++ tailChars e.rest).length + 1 from rfl,
    tokenizeAux_num _ e.first (SepOK_tailChars e.rest),
    tokenizeAux_tail e.rest _ (by simp only [List.length_append]; omega)]
  rfl

end BODMAS

namespace BODMAS

/-! ### The parser on a bracket-free token list

`chainMD` mirrors the parser's multiplicative loop on the values it
computes; `chainAS` mirrors the additive loop.  Together they give a
closed form for `parseL` on the token list of a rendered bracket-free
expression. -/

/-- Collapse the leading multiplication/division run. -/
def chainMD : PyVal → List (FOp × ℕ) → Option (PyVal × List (FOp × ℕ))
  | v, [] => some (v, [])
  | v, (o, n) :: rest =>
    match o with
    | .fmul => chainMD (pvMul v (.intV n)) rest
    | .fdiv => (pvDiv v (.intV n)).bind (fun w => chainMD w rest)
    | _ => some (v, (o, n) :: rest)

theorem chainMD_nil (v : PyVal) : chainMD v [] = some (v, []) := rfl

theorem chainMD_mul (v : PyVal) (n : ℕ) (rest : List (FOp × ℕ)) :
    chainMD v ((FOp.fmul, n) :: rest) = chainMD (pvMul v (.intV n)) rest := rfl

theorem chainMD_div (v : PyVal) (n : ℕ) (rest : List (FOp × ℕ)) :
    chainMD v ((FOp.fdiv, n) :: rest) =
      (pvDiv v (.intV n)).bind (fun w => chainMD w rest) := rfl

theorem chainMD_add (v : PyVal) (n : ℕ) (rest : List (FOp × ℕ)) :
    chainMD v ((FOp.fadd, n) :: rest) = some (v, (FOp.fadd, n) :: rest) := rfl

theorem chainMD_sub (v : PyVal) (n : ℕ) (rest : List (FOp × ℕ)) :
    chainMD v ((FOp.fsub, n) :: rest) = some (v, (FOp.fsub, n) :: rest) := rfl

/-- The list starts with `+`/`-` (or is empty): the shape `chainMD` leaves. -/
def ASHead : List (FOp × ℕ) → Prop
  | [] => True
  | (o, _) :: _ => o = FOp.fadd ∨ o = FOp.fsub

theorem chainMD_length :
    ∀ (l : List (FOp × ℕ)) (v : PyVal) (p : PyVal × List (FOp × ℕ)),
      chainMD v l = some p → p.2.length ≤ l.length := by
  intro l
  induction l with
  | nil => intro v p h; simp [chainMD] at h; simp [← h]
  | cons q rest ih =>
    intro v p h
    obtain ⟨o, n⟩ := q
    cases o with
    | fmul =>
      rw [chainMD_mul] at h
      have := ih _ _ h
      simp only [List.length_cons]
      omega
    | fdiv =>
      rw [chainMD_div] at h
      cases hdv : pvDiv v (.intV n) with
      | none => rw [hdv] at h; simp at h
      | some w =>
        rw [hdv] at h
        simp only [Option.some_bind] at h
        have := ih _ _ h
        simp only [List.length_cons]
        omega
    | fadd =>
      rw [chainMD_add] at h
      simp only [Option.some.injEq] at h
      simp [← h]
    | fsub =>
      rw [chainMD_sub] at h
      simp only [Option.some.injEq] at h
      simp [← h]

theorem chainMD_shape :
    ∀ (l : List (FOp × ℕ)) (v : PyVal) (p : PyVal × List (FOp × ℕ)),
      chainMD v l = some p → ASHead p.2 := by
  intro l
  induction l with
  | nil => intro v p h; simp [chainMD] at h; simp [← h, ASHead]
  | cons q rest ih =>
    intro v p h
    obtain ⟨o, n⟩ := q
    cases o with
    | fmul => rw [chainMD_mul] at h; exact ih _ _ h
    | fdiv =>
      rw [chainMD_div] at h
      cases hdv : pvDiv v (.intV n) with
      | none => rw [hdv] at h; simp at h
      | some w =>
        rw [hdv] at h
        simp only [Option.some_bind] at h
        exact ih _ _ h
    | fadd =>
      rw [chainMD_add] at h
      simp only [Option.some.injEq] at h
      simp [← h, ASHead]
    | fsub =>
      rw [chainMD_sub] at h
      simp only [Option.some.injEq] at h
      simp [← h, ASHead]

/-- Collapse the whole list after the leading chain: the additive loop. -/
def chainAS : PyVal → List (FOp × ℕ) → Option PyVal
  | v, [] => some v
  | v, (o, n) :: rest =>
    match o with
    | .fadd =>
      match h : chainMD (.intV n) rest with
      | some p => chainAS (pvAdd v p.1) p.2
      | none => none
    | .fsub =>
      match h : chainMD (.intV n) rest with
      | some p => chainAS (pvSub v p.1) p.2
      | none => none
    | _ => none
termination_by v l => l.length
decreasing_by
  · simp only [List.length_cons]
    have := chainMD_length _ _ _ h
    omega
  · simp only [List.length_cons]
    have := chainMD_length _ _ _ h
    omega

theorem tailToks_head_ne_pow (l : List (FOp × ℕ)) :
    (tailToks l).head? ≠ some (Tok.op BinOp.pow) := by
  cases l with
  | nil => simp [tailToks]
  | cons p r =>
    have : tailToks (p :: r) = Tok.op p.1.toBinOp :: Tok.num (.intV p.2) :: tailToks r := rfl
    rw [this]
    cases h : p.1 <;> simp [FOp.toBinOp]

theorem tailToks_length (l : List (FOp × ℕ)) : (tailToks l).length = 2 * l.length := by
  induction l with
  | nil => simp [tailToks]
  | cons p r ih =>
    have : tailToks (p :: r) = Tok.op p.1.toBinOp :: Tok.num (.intV p.2) :: tailToks r := rfl
    rw [this]
    simp only [List.length_cons, ih]
    omega

theorem parse_unary (f : ℕ) (hf : 3 ≤ f) (x v : PyVal) (ts : List Tok)
    (h : ts.head? ≠ some (Tok.op BinOp.pow)) :
    parseL f 2 x (Tok.num v :: ts) = some (v, ts) := by
  obtain ⟨g, rfl⟩ : ∃ g, f = g + 3 := ⟨f - 3, by omega⟩
  rw [parseL, parseL]
  · cases ts with
    | nil => rfl
    | cons t ts' =>
      cases t with
      | num w => rfl
      | lpar => rfl
      | rpar => rfl
      | op o =>
        cases o with
        | pow => exact absurd rfl h
        | add => rfl
        | sub => rfl
        | mul => rfl
        | div => rfl
        | floordiv => rfl
        | modOp => rfl
  all_goals (intro rest hh; simp at hh)

end BODMAS

namespace BODMAS

theorem parse5_nil (f : ℕ) (acc : PyVal) : parseL (f + 1) 5 acc [] = some (acc, []) := rfl

theorem parse5_mul (f : ℕ) (acc : PyVal) (rest : List Tok) :
    parseL (f + 1) 5 acc (Tok.op BinOp.mul :: rest) =
      match parseL f 2 (.intV 0) rest with
      | some (v, r) => parseL f 5 (pvMul acc v) r
      | none => none := rfl

theorem parse5_div (f : ℕ) (acc : PyVal) (rest : List Tok) :
    parseL (f + 1) 5 acc (Tok.op BinOp.div :: rest) =
      match parseL f 2 (.intV 0) rest with
      | some (v, r) => (pvDiv acc v).bind (fun w => parseL f 5 w r)
      | none => none := rfl

theorem parse5_stop_add (f : ℕ) (acc : PyVal) (rest : List Tok) :
    parseL (f + 1) 5 acc (Tok.op BinOp.add :: rest) =
      some (acc, Tok.op BinOp.add :: rest) := rfl

theorem parse5_stop_sub (f : ℕ) (acc : PyVal) (rest : List Tok) :
    parseL (f + 1) 5 acc (Tok.op BinOp.sub :: rest) =
      some (acc, Tok.op BinOp.sub :: rest) := rfl

theorem parse3_entry (f : ℕ) (x : PyVal) (toks : List Tok) :
    parseL (f + 1) 3 x toks =
      match parseL f 2 (.intV 0) toks with
      | some (v, rest) => parseL f 5 v rest
      | none => none := rfl

theorem parse4_entry (f : ℕ) (x : PyVal) (toks : List Tok) :
    parseL (f + 1) 4 x toks =
      match parseL f 3 (.intV 0) toks with
      | some (v, rest) => parseL f 6 v rest
      | none => none := rfl

theorem parse6_nil (f : ℕ) (acc : PyVal) : parseL (f + 1) 6 acc [] = some (acc, []) := rfl

theorem parse6_add (f : ℕ) (acc : PyVal) (rest : List Tok) :
    parseL (f + 1) 6 acc (Tok.op BinOp.add :: rest) =
      match parseL f 3 (.intV 0) rest with
      | some (v, r) => parseL f 6 (pvAdd acc v) r
      | none => none := rfl

theorem parse6_sub (f : ℕ) (acc : PyVal) (rest : List Tok) :
    parseL (f + 1) 6 acc (Tok.op BinOp.sub :: rest) =
      match parseL f 3 (.intV 0) rest with
      | some (v, r) => parseL f 6 (pvSub acc v) r
      | none => none := rfl

theorem parse_mulLoop :
    ∀ (l : List (FOp × ℕ)) (v : PyVal) (f : ℕ), 5 * l.length + 1 ≤ f →
      parseL f 5 v (tailToks l) = (chainMD v l).map (fun p => (p.1, tailToks p.2)) := by
  intro l
  induction l with
  | nil =>
    intro v f hf
    obtain ⟨g, rfl⟩ : ∃ g, f = g + 1 := ⟨f - 1, by omega⟩
    rw [show tailToks [] = [] from rfl, parse5_nil, chainMD_nil]
    rfl
  | cons q rest ih =>
    intro v f hf
    obtain ⟨o, n⟩ := q
    obtain ⟨g, rfl⟩ : ∃ g, f = g + 1 := ⟨f - 1, by simp at hf; omega⟩
    have htt : tailToks ((o, n) :: rest) =
        Tok.op o.toBinOp :: Tok.num (.intV n) :: tailToks rest := rfl
    rw [htt]
    have hg : 3 ≤ g := by simp at hf; omega
    have hg2 : 5 * rest.length + 1 ≤ g := by simp at hf; omega
    cases o with
    | fmul =>
      rw [show FOp.fmul.toBinOp = BinOp.mul from rfl, parse5_mul,
        parse_unary g hg _ _ _ (tailToks_head_ne_pow rest)]
      dsimp only
      rw [ih _ g hg2, chainMD_mul]
    | fdiv =>
      rw [show FOp.fdiv.toBinOp = BinOp.div from rfl, parse5_div,
        parse_unary g hg _ _ _ (tailToks_head_ne_pow rest), chainMD_div]
      dsimp only
      cases hdv : pvDiv v (.intV n) with
      | none => rfl
      | some w => simp only [Option.some_bind]; exact ih w g hg2
    | fadd =>
      rw [show FOp.fadd.toBinOp = BinOp.add from rfl, parse5_stop_add, chainMD_add]
      rfl
    | fsub =>
      rw [show FOp.fsub.toBinOp = BinOp.sub from rfl, parse5_stop_sub, chainMD_sub]
      rfl

theorem parse_mul3 (l : List (FOp × ℕ)) (n : ℕ) (x : PyVal) (f : ℕ)
    (hf : 5 * l.length + 5 ≤ f) :
    parseL f 3 x (Tok.num (.intV n) :: tailToks l) =
      (chainMD (.intV n) l).map (fun p => (p.1, tailToks p.2)) := by
  obtain ⟨g, rfl⟩ : ∃ g, f = g + 1 := ⟨f - 1, by omega⟩
  rw [parse3_entry, parse_unary g (by omega) _ _ _ (tailToks_head_ne_pow l)]
  dsimp only
  exact parse_mulLoop l _ g (by omega)

theorem parse_addLoop :
    ∀ (k : ℕ) (l : List (FOp × ℕ)), l.length ≤ k → ASHead l →
      ∀ (acc : PyVal) (f : ℕ), 6 * l.length + 6 ≤ f →
        parseL f 6 acc (tailToks l) =
          (chainAS acc l).map (fun w => (w, ([] : List Tok))) := by
  intro k
  induction k with
  | zero =>
    intro l hl _ acc f hf
    have : l = [] := List.length_eq_zero.mp (by omega)
    subst this
    obtain ⟨g, rfl⟩ : ∃ g, f = g + 1 := ⟨f - 1, by omega⟩
    rw [show tailToks [] = [] from rfl, parse6_nil, chainAS]
    rfl
  | succ k ih =>
    intro l hl hsh acc f hf
    cases l with
    | nil =>
      obtain ⟨g, rfl⟩ : ∃ g, f = g + 1 := ⟨f - 1, by omega⟩
      rw [show tailToks [] = [] from rfl, parse6_nil, chainAS]
      rfl
    | cons q rest =>
      obtain ⟨o, n⟩ := q
      obtain ⟨g, rfl⟩ : ∃ g, f = g + 1 := ⟨f - 1, by simp at hf; omega⟩
      have htt : tailToks ((o, n) :: rest) =
          Tok.op o.toBinOp :: Tok.num (.intV n) :: tailToks rest := rfl
      have hg3 : 5 * rest.length + 5 ≤ g := by simp at hf; omega
      cases o with
      | fmul => exact absurd hsh (by simp [ASHead])
      | fdiv => exact absurd hsh (by simp [ASHead])
      | fadd =>
        rw [htt, show FOp.fadd.toBinOp = BinOp.add from rfl, parse6_add,
          parse_mul3 rest n _ g hg3]
        cases hmd : chainMD (.intV n) rest with
        | none =>
          rw [chainAS]
          rw [hmd]
          rfl
        | some p =>
          dsimp only [Option.map_some']
          have hlen := chainMD_length _ _ _ hmd
          have hih := ih p.2 (by simp at hl; omega) (chainMD_shape _ _ _ hmd)
            (pvAdd acc p.1) g (by simp at hf; omega)
          rw [hih, chainAS]
          rw [hmd]
      | fsub =>
        rw [htt, show FOp.fsub.toBinOp = BinOp.sub from rfl, parse6_sub,
          parse_mul3 rest n _ g hg3]
        cases hmd : chainMD (.intV n) rest with
        | none =>
          rw [chainAS]
          rw [hmd]
          rfl
        | some p =>
          dsimp only [Option.map_some']
          have hlen := chainMD_length _ _ _ hmd
          have hih := ih p.2 (by simp at hl; omega) (chainMD_shape _ _ _ hmd)
            (pvSub acc p.1) g (by simp at hf; omega)
          rw [hih, chainAS]
          rw [hmd]

theorem parse_top (e : FlatExpr) (f : ℕ) (hf : 6 * e.rest.length + 8 ≤ f) :
    parseL f 4 (.intV 0) (flatToks e) =
      ((chainMD (.intV e.first) e.rest).bind
        (fun p => chainAS p.1 p.2)).map (fun w => (w, ([] : List Tok))) := by
  obtain ⟨g, rfl⟩ : ∃ g, f = g + 1 := ⟨f - 1, by omega⟩
  rw [show flatToks e = Tok.num (.intV e.first) :: tailToks e.rest from rfl,
    parse4_entry, parse_mul3 e.rest e.first _ g (by omega)]
  cases hmd : chainMD (.intV e.first) e.rest with
  | none => rfl
  | some p =>
    dsimp only [Option.map_some', Option.some_bind]
    exact parse_addLoop p.2.length p.2 le_rfl (chainMD_shape _ _ _ hmd) p.1 g
      (by have := chainMD_length _ _ _ hmd; omega)

theorem pyEvalToks_flat (e : FlatExpr) :
    pyEvalToks (flatToks e) =
      (chainMD (.intV e.first) e.rest).bind (fun p => chainAS p.1 p.2) := by
  rw [pyEvalToks, parse_top e _ (by
    rw [show (flatToks e).length = (tailToks e.rest).length + 1 from rfl,
      tailToks_length]
    omega)]
  cases (chainMD (.intV e.first) e.rest).bind (fun p => chainAS p.1 p.2) with
  | none => rfl
  | some w => rfl

end BODMAS

namespace BODMAS

/-! ### Relating the parser's values to the spec's two-pass evaluation -/

/-- ℚ image of an operator/literal list. -/
def lQ (l : List (FOp × ℕ)) : List (FOp × ℚ) := l.map (fun p => (p.1, (p.2 : ℚ)))

theorem toQ_of_asInt {v : PyVal} {m : ℤ} (h : v.asInt = some m) : v.toQ = (m : ℚ) := by
  cases v with
  | intV n => simp only [PyVal.asInt, Option.some.injEq] at h; subst h; rfl
  | floatV q => simp [PyVal.asInt] at h
  | boolV b =>
    simp only [PyVal.asInt, Option.some.injEq] at h
    subst h
    cases b <;> simp [PyVal.toQ]

theorem pvAdd_toQ (a b : PyVal) : (pvAdd a b).toQ = a.toQ + b.toQ := by
  unfold pvAdd
  cases ha : a.asInt with
  | some m =>
    cases hb : b.asInt with
    | some n =>
      rw [toQ_of_asInt ha, toQ_of_asInt hb]
      simp only [PyVal.toQ]
      push_cast
      ring
    | none => simp [PyVal.toQ, qAdd_eq]
  | none => simp [PyVal.toQ, qAdd_eq]

theorem pvSub_toQ (a b : PyVal) : (pvSub a b).toQ = a.toQ - b.toQ := by
  unfold pvSub
  cases ha : a.asInt with
  | some m =>
    cases hb : b.asInt with
    | some n =>
      rw [toQ_of_asInt ha, toQ_of_asInt hb]
      simp only [PyVal.toQ]
      push_cast
      ring
    | none => simp [PyVal.toQ, qSub_eq]
  | none => simp [PyVal.toQ, qSub_eq]

theorem pvMul_toQ (a b : PyVal) : (pvMul a b).toQ = a.toQ * b.toQ := by
  unfold pvMul
  cases ha : a.asInt with
  | some m =>
    cases hb : b.asInt with
    | some n =>
      rw [toQ_of_asInt ha, toQ_of_asInt hb]
      simp only [PyVal.toQ]
      push_cast
      ring
    | none => simp [PyVal.toQ, qMul_eq]
  | none => simp [PyVal.toQ, qMul_eq]

theorem pvDiv_eq_none {a b : PyVal} : pvDiv a b = none ↔ b.toQ = 0 := by
  unfold pvDiv
  split <;> simp_all

theorem pvDiv_toQ {a b w : PyVal} (h : pvDiv a b = some w) : w.toQ = a.toQ / b.toQ := by
  unfold pvDiv at h
  split at h
  · simp at h
  · simp only [Option.some.injEq] at h
    subst h
    simp [PyVal.toQ, qDiv_eq]

theorem intV_toQ (n : ℕ) : (PyVal.intV (n : ℤ)).toQ = (n : ℚ) := by
  simp [PyVal.toQ]

theorem starSlash_nil (c : ℚ) : starSlashPass c [] = some (c, []) := rfl

theorem starSlash_mul (c n : ℚ) (rest : List (FOp × ℚ)) :
    starSlashPass c ((FOp.fmul, n) :: rest) = starSlashPass (c * n) rest := rfl

theorem starSlash_div (c n : ℚ) (rest : List (FOp × ℚ)) :
    starSlashPass c ((FOp.fdiv, n) :: rest) =
      if n = 0 then none else starSlashPass (c / n) rest := rfl

theorem starSlash_add (c n : ℚ) (rest : List (FOp × ℚ)) :
    starSlashPass c ((FOp.fadd, n) :: rest) =
      (starSlashPass n rest).map (fun p => (c, (FOp.fadd, p.1) :: p.2)) := rfl

theorem starSlash_sub (c n : ℚ) (rest : List (FOp × ℚ)) :
    starSlashPass c ((FOp.fsub, n) :: rest) =
      (starSlashPass n rest).map (fun p => (c, (FOp.fsub, p.1) :: p.2)) := rfl

theorem plusMinus_nil (c : ℚ) : plusMinusPass c [] = c := rfl

theorem plusMinus_cons (c : ℚ) (o : FOp) (n : ℚ) (rest : List (FOp × ℚ)) :
    plusMinusPass c ((o, n) :: rest) =
      plusMinusPass (if o = FOp.fadd then c + n else c - n) rest := rfl

theorem lQ_cons (o : FOp) (n : ℕ) (rest : List (FOp × ℕ)) :
    lQ ((o, n) :: rest) = (o, (n : ℚ)) :: lQ rest := rfl

/-- Collapsing the leading chain commutes with the spec's `*`/`/` pass. -/
theorem starSlash_chainMD :
    ∀ (l : List (FOp × ℕ)) (v : PyVal),
      (∀ p, chainMD v l = some p →
        starSlashPass v.toQ (lQ l) = starSlashPass p.1.toQ (lQ p.2)) ∧
      (chainMD v l = none → starSlashPass v.toQ (lQ l) = none) := by
  intro l
  induction l with
  | nil =>
    intro v
    constructor
    · intro p hp
      rw [chainMD_nil] at hp
      simp only [Option.some.injEq] at hp
      subst hp
      rfl
    · intro hp; rw [chainMD_nil] at hp; simp at hp
  | cons q rest ih =>
    intro v
    obtain ⟨o, n⟩ := q
    cases o with
    | fmul =>
      have hmulQ : (pvMul v (.intV (n : ℤ))).toQ = v.toQ * (n : ℚ) := by
        rw [pvMul_toQ, intV_toQ]
      constructor
      · intro p hp
        rw [chainMD_mul] at hp
        rw [lQ_cons, starSlash_mul, ← hmulQ]
        exact (ih _).1 p hp
      · intro hp
        rw [chainMD_mul] at hp
        rw [lQ_cons, starSlash_mul, ← hmulQ]
        exact (ih _).2 hp
    | fdiv =>
      constructor
      · intro p hp
        rw [chainMD_div] at hp
        rw [lQ_cons, starSlash_div]
        cases hdv : pvDiv v (.intV (n : ℤ)) with
        | none =>
          rw [hdv] at hp; simp at hp
        | some w =>
          rw [hdv] at hp
          simp only [Option.some_bind] at hp
          have hz : ¬ ((n : ℚ) = 0) := by
            intro hz
            have : (PyVal.intV (n : ℤ)).toQ = 0 := by rw [intV_toQ, hz]
            exact (by rw [pvDiv_eq_none.mpr this] at hdv; exact Option.noConfusion hdv)
          rw [if_neg hz]
          have hw : w.toQ = v.toQ / (n : ℚ) := by
            rw [pvDiv_toQ hdv, intV_toQ]
          rw [← hw]
          exact (ih _).1 p hp
      · intro hp
        rw [chainMD_div] at hp
        rw [lQ_cons, starSlash_div]
        cases hdv : pvDiv v (.intV (n : ℤ)) with
        | none =>
          have hz : (PyVal.intV (n : ℤ)).toQ = 0 := pvDiv_eq_none.mp hdv
          rw [intV_toQ] at hz
          rw [if_pos hz]
        | some w =>
          rw [hdv] at hp
          simp only [Option.some_bind] at hp
          have hz : ¬ ((n : ℚ) = 0) := by
            intro hz
            have : (PyVal.intV (n : ℤ)).toQ = 0 := by rw [intV_toQ, hz]
            exact (by rw [pvDiv_eq_none.mpr this] at hdv; exact Option.noConfusion hdv)
          rw [if_neg hz]
          have hw : w.toQ = v.toQ / (n : ℚ) := by
            rw [pvDiv_toQ hdv, intV_toQ]
          rw [← hw]
          exact (ih _).2 hp
    | fadd =>
      constructor
      · intro p hp
        rw [chainMD_add] at hp
        simp only [Option.some.injEq] at hp
        subst hp
        rfl
      · intro hp; rw [chainMD_add] at hp; simp at hp
    | fsub =>
      constructor
      · intro p hp
        rw [chainMD_sub] at hp
        simp only [Option.some.injEq] at hp
        subst hp
        rfl
      · intro hp; rw [chainMD_sub] at hp; simp at hp

end BODMAS

namespace BODMAS

/-- Head shape on ℚ lists. -/
def ASHeadQ : List (FOp × ℚ) → Prop
  | [] => True
  | (o, _) :: _ => o = FOp.fadd ∨ o = FOp.fsub

theorem lQ_ASHead {l : List (FOp × ℕ)} (h : ASHead l) : ASHeadQ (lQ l) := by
  cases l with
  | nil => trivial
  | cons q rest => obtain ⟨o, n⟩ := q; exact h

/-- On a list whose head is additive, the `*`/`/` pass returns its input as
first component and a second component independent of it. -/
theorem starSlash_fst (l : List (FOp × ℚ)) (h : ASHeadQ l) (c : ℚ) :
    starSlashPass c l = (starSlashPass 0 l).map (fun p => (c, p.2)) := by
  cases l with
  | nil => rfl
  | cons q rest =>
    obtain ⟨o, n⟩ := q
    rcases h with ho | ho <;> subst ho
    · rw [starSlash_add, starSlash_add]
      cases starSlashPass n rest <;> rfl
    · rw [starSlash_sub, starSlash_sub]
      cases starSlashPass n rest <;> rfl

/-- The additive collapse computes the spec's two-pass value. -/
theorem chainAS_spec :
    ∀ (k : ℕ) (l : List (FOp × ℕ)), l.length ≤ k → ASHead l →
      ∀ v : PyVal,
        (chainAS v l).map PyVal.toQ =
          (starSlashPass v.toQ (lQ l)).map (fun p => plusMinusPass p.1 p.2) := by
  intro k
  induction k with
  | zero =>
    intro l hl _ v
    have : l = [] := List.length_eq_zero.mp (by omega)
    subst this
    rw [chainAS]
    rfl
  | succ k ih =>
    intro l hl hsh v
    cases l with
    | nil =>
      rw [chainAS]
      rfl
    | cons q rest =>
      obtain ⟨o, n⟩ := q
      cases o with
      | fmul => exact absurd hsh (by simp [ASHead])
      | fdiv => exact absurd hsh (by simp [ASHead])
      | fadd =>
        rw [chainAS, lQ_cons, starSlash_add]
        cases hmd : chainMD (.intV (n : ℤ)) rest with
        | none =>
          have hnone := (starSlash_chainMD rest (.intV (n : ℤ))).2 hmd
          rw [intV_toQ] at hnone
          rw [hnone]
          rfl
        | some p =>
          have hstep := (starSlash_chainMD rest (.intV (n : ℤ))).1 p hmd
          rw [intV_toQ] at hstep
          have hshp : ASHead p.2 := chainMD_shape _ _ _ hmd
          have hlen := chainMD_length _ _ _ hmd
          have hih := ih p.2 (by simp at hl; omega) hshp (pvAdd v p.1)
          rw [hstep, starSlash_fst (lQ p.2) (lQ_ASHead hshp)]
          rw [starSlash_fst (lQ p.2) (lQ_ASHead hshp)] at hih
          cases hss : starSlashPass 0 (lQ p.2) with
          | none =>
            rw [hss] at hih
            simp only [Option.map_none'] at hih ⊢
            exact hih
          | some al =>
            rw [hss] at hih
            simp only [Option.map_some'] at hih ⊢
            rw [hih, pvAdd_toQ, plusMinus_cons, if_pos rfl]
      | fsub =>
        rw [chainAS, lQ_cons, starSlash_sub]
        cases hmd : chainMD (.intV (n : ℤ)) rest with
        | none =>
          have hnone := (starSlash_chainMD rest (.intV (n : ℤ))).2 hmd
          rw [intV_toQ] at hnone
          rw [hnone]
          rfl
        | some p =>
          have hstep := (starSlash_chainMD rest (.intV (n : ℤ))).1 p hmd
          rw [intV_toQ] at hstep
          have hshp : ASHead p.2 := chainMD_shape _ _ _ hmd
          have hlen := chainMD_length _ _ _ hmd
          have hih := ih p.2 (by simp at hl; omega) hshp (pvSub v p.1)
          rw [hstep, starSlash_fst (lQ p.2) (lQ_ASHead hshp)]
          rw [starSlash_fst (lQ p.2) (lQ_ASHead hshp)] at hih
          cases hss : starSlashPass 0 (lQ p.2) with
          | none =>
            rw [hss] at hih
            simp only [Option.map_none'] at hih ⊢
            exact hih
          | some al =>
            rw [hss] at hih
            simp only [Option.map_some'] at hih ⊢
            rw [hih, pvSub_toQ, plusMinus_cons, if_neg (by simp)]

end BODMAS

namespace BODMAS

/-- The precedence law for bracket-free expressions: `solve` on the rendered
expression equals the spec's two-pass left-to-right evaluation. -/
theorem pySolve_render (e : FlatExpr) : pySolve (render e) = specEval e := by
  have hdata : (render e).data = renderChars e := rfl
  rw [pySolve, hdata, pyEvalChars, tokenize_render]
  simp only [Option.some_bind]
  rw [pyEvalToks_flat, specEval]
  have hlq : e.rest.map (fun p => (p.1, (p.2 : ℚ))) = lQ e.rest := rfl
  rw [hlq]
  cases hmd : chainMD (.intV (e.first : ℤ)) e.rest with
  | none =>
    have hnone := (starSlash_chainMD e.rest (.intV (e.first : ℤ))).2 hmd
    rw [intV_toQ] at hnone
    rw [hnone]
    rfl
  | some p =>
    have hstep := (starSlash_chainMD e.rest (.intV (e.first : ℤ))).1 p hmd
    rw [intV_toQ] at hstep
    rw [hstep]
    simp only [Option.some_bind]
    have hmap : Option.map pvFloat (chainAS p.1 p.2) =
        Option.map PyVal.toQ (chainAS p.1 p.2) := rfl
    rw [hmap]
    exact chainAS_spec p.2.length p.2 le_rfl (chainMD_shape _ _ _ hmd) p.1

end BODMAS

namespace BODMAS

theorem validTol_eq : validTol = 1 / 10000 := by
  rw [validTol, Rat.divInt_eq_div]
  norm_num

/-! ### The claims -/

/-- C1 (counterexample): the claim says `solve("5 / 0")` returns positive
infinity rather than signalling a failure; in fact `eval` raises
`ZeroDivisionError`, the blanket `except` catches it, and `solve` returns
the failure value `None`. -/
theorem C1_cex_div_zero_fails : pySolve "5 / 0" = none := by decide

/-- C1 (amended): for a division whose divisor is exactly zero, `solve`
returns the failure value `None` - not infinity.  The
division-by-zero-to-infinity rule lives only in the step reducer's
division/multiplication phase (line 123), where `"5 / 0"` produces the
working string `"inf"`, and in the unused `operations` table (line 26). -/
theorem C1_div_zero_policy :
    pySolve "5 / 0" = none ∧ pySolve "5 / 0.0" = none ∧ pySolve "0 / 0" = none ∧
    get_correct_steps "5 / 0" =
      [⟨0, "5 / 0", "Original expression"⟩,
       ⟨1, "inf", "Division/Multiplication: 5/0 = inf"⟩] := by
  refine ⟨by decide, by decide, by decide, by decide⟩

/-- C2: for every well-formed bracket-free expression over `+ - * /`,
`solve` returns the value obtained by first applying all `*`/`/` operations
left-to-right and then all `+`/`-` operations left-to-right; in particular
`solve("2 + 3 * 4") = 14`. -/
theorem C2_precedence_law :
    (∀ e : FlatExpr, pySolve (render e) = specEval e) ∧
    pySolve "2 + 3 * 4" = some 14 :=
  ⟨pySolve_render, by decide⟩

/-- C3 (code bug): the trace of `"19+2"` is reduced to completion - its
last step's expression is the bare numeric literal `"111.0"` - but
`solve("19+2") = 21`, far outside the `1e-4` tolerance.  The
addition/subtraction loop searched `current[1:] = "9+2"`, computed
`9+2 = 11.0`, and spliced it after the clipped leading `"1"`. -/
theorem C3_trace_value_mismatch :
    get_correct_steps "19+2" =
      [⟨0, "19+2", "Original expression"⟩,
       ⟨1, "111.0", "Addition/Subtraction: 9+2 = 11.0"⟩] ∧
    pySolve "19+2" = some 21 ∧
    uLitVal "111.0".data = 111 ∧
    ¬(|(111 : ℚ) - 21| < 1 / 10000) := by
  refine ⟨by decide, by decide, by decide, by norm_num⟩

/-- C4 (code bug): the addition/subtraction scan does exclude position 0
(and the division/multiplication pattern does match a signed literal at
position 0, as `searchBin` on `"-4*5"` shows), but the splice offsets are
applied to a window whose first operand may be clipped, so an expression
whose working string starts with a negative number is NOT reduced to the
correct value: `"-4+5"` reduces to `"-9.0"` while its value is `1`.  The
exponent pattern, contrary to the claim, has no sign at all: on `"-2**3"`
it matches at position 1. -/
theorem C4_negative_literal_bug :
    get_correct_steps "-4+5" =
      [⟨0, "-4+5", "Original expression"⟩,
       ⟨1, "-9.0", "Addition/Subtraction: 4+5 = 9.0"⟩] ∧
    pySolve "-4+5" = some 1 ∧
    searchBin isMDOp "-4*5".data = some (0, ⟨['-', '4'], [], '*', [], ['5']⟩) ∧
    searchExp "-2**3".data = some (1, ⟨['2'], ['3']⟩) := by
  refine ⟨by decide, by decide, by decide, by decide⟩

/-- C5: the explain operation never fails: it is a total function whose
result always extends the singleton trace `[step 0]` - on any internal
reduction failure each loop stops and the steps accumulated so far are
returned. -/
theorem C5_fail_soft (expr : String) :
    get_correct_steps expr ≠ [] ∧
    ∃ extra, get_correct_steps expr = ⟨0, expr, "Original expression"⟩ :: extra := by
  obtain ⟨extra, he⟩ := get_correct_steps_extends expr
  exact ⟨by rw [he]; simp, extra, by rw [he]; rfl⟩

/-- C6: `validate_answer` reports `is_correct = true` exactly when the
absolute difference between the student's answer and `solve`'s result is
strictly below `1e-4`, and returns both values. -/
theorem C6_validator_tolerance (expr : String) (s c : ℚ)
    (h : pySolve expr = some c) :
    ((validate_answer expr s).is_correct = true ↔ |s - c| < 1 / 10000) ∧
    (validate_answer expr s).correct_answer = some c ∧
    (validate_answer expr s).student_answer = some s := by
  unfold validate_answer
  rw [h]
  refine ⟨?_, rfl, rfl⟩
  simp only [decide_eq_true_eq]
  rw [qAbs_eq, qSub_eq, validTol_eq]

/-- C6 witness: at `expr = "2+2"` the hypothesis holds by evaluation, and
the claim's two samples behave as stated: `4.00005` is accepted and
`4.001` is rejected. -/
theorem C6_validator_tolerance_witness :
    pySolve "2+2" = some 4 ∧
    ((validate_answer "2+2" (Rat.divInt 400005 100000)).is_correct = true ↔
      |(Rat.divInt 400005 100000 : ℚ) - 4| < 1 / 10000) ∧
    (validate_answer "2+2" (Rat.divInt 400005 100000)).is_correct = true ∧
    (validate_answer "2+2" (Rat.divInt 4001 1000)).is_correct = false := by
  have h : pySolve "2+2" = some 4 := by decide
  exact ⟨h, (C6_validator_tolerance "2+2" (Rat.divInt 400005 100000) 4 h).1,
    by decide, by decide⟩

/-- C7 (counterexample): the claim quantifies over every input that is not
a well-formed arithmetic formula, but `eval` accepts other Python
expressions: `solve("True")` returns `1.0`, not a failure. -/
theorem C7_cex_non_arithmetic_accepted : pySolve "True" = some 1 := by decide

/-- C7 (amended): `solve` signals the failure value `None` whenever `eval`
raises - in particular on `"2 + "` and `""` - though not for every
non-arithmetic input. -/
theorem C7_malformed_input :
    pySolve "2 + " = none ∧ pySolve "" = none := by
  exact ⟨by decide, by decide⟩

/-- C8: in every trace returned by `get_correct_steps`, the step indices
are exactly `0, 1, 2, ...` in order, with no gaps or repeats. -/
theorem C8_trace_indices (expr : String) :
    (get_correct_steps expr).map Step.step =
      List.range (get_correct_steps expr).length :=
  get_correct_steps_indices expr

/-- C9: the first step of every trace carries the original input
unmodified (before whitespace stripping) with the fixed description
`"Original expression"`. -/
theorem C9_step_zero (expr : String) :
    (get_correct_steps expr).head? = some ⟨0, expr, "Original expression"⟩ := by
  obtain ⟨extra, he⟩ := get_correct_steps_extends expr
  rw [he]
  rfl

/-- C10: the addition/subtraction phase scans `current[1:]`, so the
operator of any selected `a (+|-) b` match sits at a strictly positive
index of the working string - an operator symbol at position 0 is never
selected - and the match is the left-most one in the scanned window. -/
theorem C10_scan_from_one (cur : List Char) (i : ℕ) (m : BinM)
    (h : searchBin isASOp (List.drop 1 cur) = some (i, m)) :
    (∀ j, j < i → binAt isASOp ((List.drop 1 cur).drop j) = none) ∧
    isASOp m.op = true ∧
    0 < 1 + i + m.g1.length + m.ws1.length ∧
    cur.get? (1 + i + m.g1.length + m.ws1.length) = some m.op := by
  obtain ⟨hfound, hmin⟩ := searchBin_spec h
  obtain ⟨⟨rest, hdec⟩, hop, hg1⟩ := binAt_decomp hfound
  refine ⟨hmin, hop, by omega, ?_⟩
  rw [List.drop_drop] at hdec
  rw [show 1 + i = i + 1 from by omega] at hdec
  have h1 : cur.get? (1 + i + m.g1.length + m.ws1.length) =
      (cur.drop (i + 1)).get? (m.g1.length + m.ws1.length) := by
    rw [List.get?_drop]
    congr 1
    omega
  rw [h1, hdec]
  have hsplit : m.group0 ++ rest =
      (m.g1 ++ m.ws1) ++ (m.op :: (m.ws2 ++ m.g3 ++ rest)) := by
    simp [BinM.group0]
  rw [hsplit, List.get?_append_right (by simp)]
  simp

/-- C10 witness: on working string `"2+3+4"` the scan over `current[1:]`
selects the second `+` (index 3 of the full string); position 0 of the
window admits no match. -/
theorem C10_scan_from_one_witness :
    searchBin isASOp (List.drop 1 "2+3+4".data) =
      some (1, ⟨['3'], [], '+', [], ['4']⟩) ∧
    binAt isASOp ((List.drop 1 "2+3+4".data).drop 0) = none ∧
    "2+3+4".data.get? (1 + 1 + (['3'] : List Char).length +
      (([] : List Char)).length) = some '+' := by
  have hs : searchBin isASOp (List.drop 1 "2+3+4".data) =
      some (1, ⟨['3'], [], '+', [], ['4']⟩) := by decide
  have hc := C10_scan_from_one "2+3+4".data 1 ⟨['3'], [], '+', [], ['4']⟩ hs
  exact ⟨hs, hc.1 0 (by decide), hc.2.2.2⟩

end BODMAS
